import Mathlib

/-!
Verification of the kv-db storage engine core: the arena-based `SkipList`
(`src/skip_list.rs`), the write-ahead log `Wal` (`src/wal.rs`) and the `DB`
coordinator (`src/db.rs`), shallowly embedded in Lean.

Keys and values are opaque byte sequences (`Vec<u8>` in the source); bytes are
modelled as `Nat` (the algorithms only compare and copy them).  The
probabilistic level choice (`random_level`) is modelled by passing the chosen
level as an explicit argument; `random_level` always returns a level
`≤ max_level`, so theorems carry that bound as a hypothesis.
-/

namespace KvDb

abbrev Key := List Nat
abbrev Value := List Nat

/-- `Vec<u8>::cmp`: lexicographic three-way comparison on byte sequences. -/
def listCmp : List Nat → List Nat → Ordering
  | [], [] => .eq
  | [], _ :: _ => .lt
  | _ :: _, [] => .gt
  | a :: as, b :: bs =>
    match compare a b with
    | .eq => listCmp as bs
    | o => o

/-- Strict lexicographic order on byte sequences. -/
def listLt (a b : List Nat) : Prop := listCmp a b = .lt

instance : DecidablePred (fun p : List Nat × List Nat => listLt p.1 p.2) := by
  intro p; unfold listLt; infer_instance

instance (a b : List Nat) : Decidable (listLt a b) := by
  unfold listLt; infer_instance

theorem listCmp_self (a : List Nat) : listCmp a a = .eq := by
  induction a with
  | nil => rfl
  | cons x xs ih => simp [listCmp, Nat.compare_eq_eq.mpr rfl, ih]

theorem listCmp_eq_iff {a b : List Nat} : listCmp a b = .eq ↔ a = b := by
  constructor
  · intro h
    induction a generalizing b with
    | nil => cases b with
      | nil => rfl
      | cons y ys => simp [listCmp] at h
    | cons x xs ih =>
      cases b with
      | nil => simp [listCmp] at h
      | cons y ys =>
        simp only [listCmp] at h
        rcases hc : compare x y with hlt | heq | hgt
        · rw [hc] at h; exact absurd h (by simp)
        · rw [hc] at h
          have hxy : x = y := by
            have := Nat.compare_eq_eq.mp hc
            exact this
          subst hxy
          exact congrArg (x :: ·) (ih h)
        · rw [hc] at h; exact absurd h (by simp)
  · intro h; subst h; exact listCmp_self a

theorem listCmp_swap (a b : List Nat) : listCmp b a = (listCmp a b).swap := by
  induction a generalizing b with
  | nil => cases b <;> rfl
  | cons x xs ih =>
    cases b with
    | nil => rfl
    | cons y ys =>
      simp only [listCmp]
      rcases hc : compare x y with hlt | heq | hgt
      · have hyx : compare y x = .gt := by
          have hx : x < y := Nat.compare_eq_lt.mp hc
          exact Nat.compare_eq_gt.mpr hx
        simp [hyx, hc, Ordering.swap]
      · have hxy : x = y := Nat.compare_eq_eq.mp hc
        subst hxy
        simp [Nat.compare_eq_eq.mpr rfl, ih]
      · have hyx : compare y x = .lt := by
          have hx : y < x := Nat.compare_eq_gt.mp hc
          exact Nat.compare_eq_lt.mpr hx
        simp [hyx, hc, Ordering.swap]

theorem listCmp_gt_iff_lt {a b : List Nat} : listCmp a b = .gt ↔ listLt b a := by
  unfold listLt
  rw [listCmp_swap b a]
  cases h : listCmp b a <;> simp [Ordering.swap]

theorem listLt_irrefl (a : List Nat) : ¬ listLt a a := by
  unfold listLt
  rw [listCmp_self]; simp

theorem listLt_trans {a b c : List Nat} (h₁ : listLt a b) (h₂ : listLt b c) :
    listLt a c := by
  unfold listLt at *
  induction a generalizing b c with
  | nil =>
    cases c with
    | nil =>
      cases b with
      | nil => simp [listCmp] at h₁
      | cons y ys => simp [listCmp] at h₂
    | cons z zs => rfl
  | cons x xs ih =>
    cases b with
    | nil => simp [listCmp] at h₁
    | cons y ys =>
      cases c with
      | nil => simp [listCmp] at h₂
      | cons z zs =>
        simp only [listCmp] at h₁ h₂ ⊢
        rcases hxy : compare x y with _ | _ | _ <;> simp [hxy] at h₁
        · -- x < y
          have hx : x < y := Nat.compare_eq_lt.mp hxy
          rcases hyz : compare y z with _ | _ | _ <;> simp [hyz] at h₂
          · have hy : y < z := Nat.compare_eq_lt.mp hyz
            simp [Nat.compare_eq_lt.mpr (lt_trans hx hy)]
          · have hy : y = z := Nat.compare_eq_eq.mp hyz
            subst hy
            simp [Nat.compare_eq_lt.mpr hx]
        · -- x = y
          have hx : x = y := Nat.compare_eq_eq.mp hxy
          subst hx
          rcases hyz : compare x z with _ | _ | _ <;> simp [hyz] at h₂ ⊢
          exact ih h₁ h₂

theorem listLt_asymm {a b : List Nat} (h : listLt a b) : ¬ listLt b a := by
  intro h'
  exact listLt_irrefl a (listLt_trans h h')

theorem listLt_ne {a b : List Nat} (h : listLt a b) : a ≠ b := by
  intro h'; subst h'; exact listLt_irrefl a h

/-! ### SkipList data model (`src/skip_list.rs`) -/

/-- `SkipListError`: the skip list's only error. -/
inductive SkipListError where
  | KeyNotFound
deriving Repr, DecidableEq

/-- `Node { key, value, forward }`: an arena node.  `forward` holds one
optional node index per level the node participates in. -/
structure Node where
  key : Option Key
  value : Option Value
  forward : List (Option Nat)
deriving Repr, DecidableEq

instance : Inhabited Node := ⟨⟨none, none, []⟩⟩

/-- `SkipList`: the arena of nodes addressed by index.  The `update_buffer`
field of the source is a per-call scratch buffer (reset by `fill(None)` at the
start of every `put`) and the `rng` is modelled by an explicit level argument
to `put`, so neither is part of the state. -/
structure SkipList where
  head : Nat
  nodes : List Node
  max_level : Nat
  current_level : Nat
deriving Repr, DecidableEq

/-- `SkipList::new(max_level)`: a single sentinel head node with
`max_level + 1` empty forward slots. -/
def SkipList.new (max_level : Nat) : SkipList :=
  { head := 0
    nodes := [{ key := none, value := none, forward := List.replicate (max_level + 1) none }]
    max_level := max_level
    current_level := 0 }

/-- `self.nodes[i].forward[l]` (out-of-range reads yield `None`; the invariant
proved below shows the source never actually reads out of range). -/
def fwd (nodes : List Node) (i l : Nat) : Option Nat :=
  (nodes.getD i default).forward.getD l none

/-- `self.nodes[i].key.unwrap()` (the invariant shows the key is present
whenever the source unwraps it). -/
def keyAt (nodes : List Node) (i : Nat) : Key :=
  (nodes.getD i default).key.getD []

/-- `self.nodes[i].value`. -/
def valueAt (nodes : List Node) (i : Nat) : Option Value :=
  (nodes.getD i default).value

/-- Result of one level's `while let Some(next_idx) = ... ` loop: either an
exact-key match was found at `next_idx`, or the walk stopped at `cur`
(`forward` empty, or the next key is greater). -/
inductive WalkRes where
  | found (idx : Nat)
  | stop (cur : Nat)
deriving Repr, DecidableEq

/-- The inner advance loop shared by `put` and `get`: advance along level `l`
while the next node's key is less than `key`; report an exact match; stop
before a greater key.  `fuel` bounds the iteration count (the sorted-chain
invariant proved below shows `nodes.length` fuel is never exhausted). -/
def walkLevel (nodes : List Node) (key : Key) (l : Nat) : Nat → Nat → WalkRes
  | cur, 0 => .stop cur
  | cur, fuel + 1 =>
    match fwd nodes cur l with
    | none => .stop cur
    | some next =>
      match listCmp (keyAt nodes next) key with
      | .lt => walkLevel nodes key l next fuel
      | .eq => .found next
      | .gt => .stop cur

/-- The level descent of `SkipList::get`: walk level `l` from `cur`; on an
exact match return that node's value (`ok_or(KeyNotFound)`); otherwise move
down a level, or fail at level 0. -/
def getAux (nodes : List Node) (key : Key) : Nat → Nat → Except SkipListError Value
  | l, cur =>
    match walkLevel nodes key l cur nodes.length with
    | .found j =>
      match valueAt nodes j with
      | some v => .ok v
      | none => .error .KeyNotFound
    | .stop p =>
      match l with
      | 0 => .error .KeyNotFound
      | l' + 1 => getAux nodes key l' p

/-- `SkipList::get(key)`: top-down search from the head starting at
`current_level`. -/
def SkipList.get (s : SkipList) (key : Key) : Except SkipListError Value :=
  getAux s.nodes key s.current_level s.head

/-- The search phase of `SkipList::put`: descend recording, per level, the
last node visited before overshoot (`update_buffer[i] = Some(current)`), or
report an exact-key match (`Sum.inr`). -/
def putSearch (nodes : List Node) (key : Key) :
    Nat → Nat → List (Option Nat) → (List (Option Nat)) ⊕ Nat
  | l, cur, buf =>
    match walkLevel nodes key l cur nodes.length with
    | .found j => Sum.inr j
    | .stop p =>
      let buf' := buf.set l (some p)
      match l with
      | 0 => Sum.inl buf'
      | l' + 1 => putSearch nodes key l' p buf'

/-- Write `v` into slot `l` of node `i`'s forward array. -/
def setFwd (nodes : List Node) (i l : Nat) (v : Option Nat) : List Node :=
  nodes.set i { nodes.getD i default with forward := (nodes.getD i default).forward.set l v }

/-- One iteration of `put`'s splice loop at level `i`:
`new.forward[i] = nodes[upd].forward[i]; nodes[upd].forward[i] = Some(new)`. -/
def spliceStep (buf : List (Option Nat)) (head n : Nat) (nodes : List Node) (i : Nat) :
    List Node :=
  let upd := (buf.getD i none).getD head
  let nodes' := setFwd nodes n i (fwd nodes upd i)
  setFwd nodes' upd i (some n)

/-- `for i in 0..=level { splice }`, processed in increasing level order. -/
def spliceUpto (buf : List (Option Nat)) (head n : Nat) (nodes : List Node) :
    Nat → List Node
  | 0 => spliceStep buf head n nodes 0
  | i + 1 => spliceStep buf head n (spliceUpto buf head n nodes i) (i + 1)

/-- `for i in (current_level + 1)..=level { nodes[head].forward[i] = Some(new) }`. -/
def raiseUpto (head n cl : Nat) (nodes : List Node) : Nat → List Node
  | 0 => nodes
  | j + 1 =>
    if j + 1 ≤ cl then nodes
    else setFwd (raiseUpto head n cl nodes j) head (j + 1) (some n)

/-- `SkipList::put(key, value)` with the level chosen by `random_level` passed
explicitly (`random_level` always returns a level `≤ max_level`).  Either an
existing node's value is replaced in place, or a new node is appended to the
arena and spliced in at levels `0..=level`, raising `current_level` if
needed. -/
def SkipList.putLevel (s : SkipList) (key : Key) (value : Value) (level : Nat) :
    SkipList × Except SkipListError Unit :=
  match putSearch s.nodes key s.current_level s.head
      (List.replicate (s.max_level + 1) none) with
  | Sum.inr j =>
    ({ s with nodes := s.nodes.set j { s.nodes.getD j default with value := some value } },
      .ok ())
  | Sum.inl buf =>
    let new_index := s.nodes.length
    let newNode : Node :=
      { key := some key, value := some value, forward := List.replicate (level + 1) none }
    let nodes1 := s.nodes ++ [newNode]
    let nodes2 := spliceUpto buf s.head new_index nodes1 level
    let nodes3 :=
      if s.current_level < level then raiseUpto s.head new_index s.current_level nodes2 level
      else nodes2
    ({ s with nodes := nodes3, current_level := max s.current_level level }, .ok ())

/-- The chain of node indices reachable from `cur` (exclusive) by following
`forward[l]`. -/
def chainFrom (nodes : List Node) (l : Nat) : Nat → Nat → List Nat
  | 0, _ => []
  | fuel + 1, cur =>
    match fwd nodes cur l with
    | none => []
    | some j => j :: chainFrom nodes l fuel j

/-- The chain reachable from the head at level `l`. -/
def chainAt (s : SkipList) (l : Nat) : List Nat :=
  chainFrom s.nodes l s.nodes.length s.head

/-- Apply a sequence of `put` calls, each with its chosen random level. -/
def applyOps : List (Key × Value × Nat) → SkipList → SkipList
  | [], s => s
  | (k, v, lvl) :: rest, s => applyOps rest (s.putLevel k v lvl).1

/-- The most recently put value for `k` in an operation sequence. -/
def specLookup (ops : List (Key × Value)) (k : Key) : Option Value :=
  ops.foldl (fun acc p => if p.1 = k then some p.2 else acc) none

/-! ### KvPair (`src/kv.rs`) and the WAL byte format (`src/wal.rs`)

The WAL file is modelled as the list of bytes on disk.  `bincode` serializes
`KvPair { key: Vec<u8>, value: Vec<u8> }` as an 8-byte little-endian length
followed by the bytes, for each of the two fields. -/

/-- `KvPair { key, value }`. -/
structure KvPair where
  key : List Nat
  value : List Nat
deriving Repr, DecidableEq

/-- A `u32` as 4 big-endian bytes (`u32::to_be_bytes`); a larger input is
truncated mod `2^32` exactly as Rust's `as u32` cast does. -/
def u32be (n : Nat) : List Nat :=
  [n / 2 ^ 24 % 256, n / 2 ^ 16 % 256, n / 2 ^ 8 % 256, n % 256]

/-- `u32::from_be_bytes` on a 4-byte buffer. -/
def deU32be (b : List Nat) : Nat :=
  b.getD 0 0 * 2 ^ 24 + b.getD 1 0 * 2 ^ 16 + b.getD 2 0 * 2 ^ 8 + b.getD 3 0

/-- A `u64` as 8 little-endian bytes (bincode's length encoding). -/
def u64le (n : Nat) : List Nat :=
  [n % 256, n / 2 ^ 8 % 256, n / 2 ^ 16 % 256, n / 2 ^ 24 % 256,
   n / 2 ^ 32 % 256, n / 2 ^ 40 % 256, n / 2 ^ 48 % 256, n / 2 ^ 56 % 256]

/-- `u64` from 8 little-endian bytes. -/
def deU64le (b : List Nat) : Nat :=
  b.getD 0 0 + b.getD 1 0 * 2 ^ 8 + b.getD 2 0 * 2 ^ 16 + b.getD 3 0 * 2 ^ 24 +
    b.getD 4 0 * 2 ^ 32 + b.getD 5 0 * 2 ^ 40 + b.getD 6 0 * 2 ^ 48 + b.getD 7 0 * 2 ^ 56

/-- `bincode::serialize(&kv)`: length-prefixed key bytes then length-prefixed
value bytes. -/
def serKv (kv : KvPair) : List Nat :=
  u64le kv.key.length ++ kv.key ++ u64le kv.value.length ++ kv.value

/-- `bincode::deserialize::<KvPair>(&data)`: parse a length-prefixed key and a
length-prefixed value; trailing bytes are ignored (bincode's legacy
`deserialize` allows them); too few bytes is an error. -/
def deKv (data : List Nat) : Option KvPair :=
  if data.length < 8 then none
  else
    let klen := deU64le (data.take 8)
    let rest := data.drop 8
    if rest.length < klen then none
    else
      let key := rest.take klen
      let rest2 := rest.drop klen
      if rest2.length < 8 then none
      else
        let vlen := deU64le (rest2.take 8)
        let rest3 := rest2.drop 8
        if rest3.length < vlen then none
        else some { key := key, value := rest3.take vlen }

/-- `Wal::append(kv)` (successful case): write the 4-byte big-endian length
prefix (`serialized.len() as u32`) then the serialized record, and flush. -/
def walAppendFile (file : List Nat) (kv : KvPair) : List Nat :=
  file ++ u32be (serKv kv).length ++ serKv kv

/-- Append a whole sequence of records. -/
def walAppendAll (file : List Nat) : List KvPair → List Nat
  | [] => file
  | kv :: rest => walAppendAll (walAppendFile file kv) rest

/-- The frame-walking loop of `Wal::read`: read a 4-byte length then that many
payload bytes, deserializing each into a record.  End-of-file while reading the
length (`UnexpectedEof`, including a partial 1-3 byte prefix) ends the loop
cleanly; end-of-file inside the payload or a deserialization failure is an
error (`none`). -/
def walReadFile (bytes : List Nat) : Option (List KvPair) :=
  if _h : bytes.length < 4 then some []
  else
    let record_len := deU32be (bytes.take 4)
    let rest := bytes.drop 4
    if rest.length < record_len then none
    else
      match deKv (rest.take record_len) with
      | none => none
      | some kv => (walReadFile (rest.drop record_len)).map (kv :: ·)
termination_by bytes.length
decreasing_by
  simp only [List.length_drop]
  omega

/-! ### DB coordinator (`src/db.rs`) -/

/-- `DatabaseError`: the single error variant the DB layer exposes. -/
inductive DatabaseError where
  | KeyNotFound
deriving Repr, DecidableEq

/-- The DB state: the WAL file contents and the in-memory SkipList. -/
structure DBState where
  walFile : List Nat
  sl : SkipList
deriving Repr, DecidableEq

/-- The replay loop of `DB::new`: apply each recovered `KvPair` to the
SkipList (`let _ = sl.put(key, value)` ignores the put result), consuming one
random level per put. -/
def replayPairs : List KvPair → List Nat → SkipList → SkipList
  | [], _, sl => sl
  | kv :: rest, levels, sl =>
    replayPairs rest levels.tail (sl.putLevel kv.key kv.value (levels.headD 0)).1

/-- `DB::new(location, max_level)`: open the WAL (whose current on-disk bytes
are `file`), build an empty SkipList, and replay
`wal.read().unwrap_or_default()` — a failed read is replaced by the empty
record list.  `levels` supplies the random level of each replayed put. -/
def DB.new (file : List Nat) (max_level : Nat) (levels : List Nat) : DBState :=
  { walFile := file
    sl := replayPairs ((walReadFile file).getD []) levels (SkipList.new max_level) }

/-- `DB::put(key, value)`: append `KvPair { key, value }` to the WAL; only if
that succeeds, put into the SkipList.  `ioFault = some torn` models an I/O
failure of the append (leaving at most a torn tail `torn` on disk), which
`put` maps to `DatabaseError::KeyNotFound` and returns before touching the
SkipList; `level` is the random level of the SkipList put. -/
def DB.put (db : DBState) (key value : List Nat) (level : Nat)
    (ioFault : Option (List Nat)) : DBState × Except DatabaseError Unit :=
  match ioFault with
  | some torn => ({ db with walFile := db.walFile ++ torn }, .error .KeyNotFound)
  | none =>
    let kv : KvPair := { key := key, value := value }
    let file' := walAppendFile db.walFile kv
    match db.sl.putLevel key value level with
    | (sl', .ok ()) => ({ walFile := file', sl := sl' }, .ok ())
    | (sl', .error _) => ({ walFile := file', sl := sl' }, .error .KeyNotFound)

/-- `DB::get(key)`: look up only in the in-memory SkipList; a SkipList error
is mapped to `DatabaseError::KeyNotFound`. -/
def DB.get (db : DBState) (key : List Nat) : Except DatabaseError Value :=
  match db.sl.get key with
  | .ok v => .ok v
  | .error _ => .error .KeyNotFound

/-! ### Reachability along forward chains -/

/-- `b` is the immediate successor of `a` at level `l`. -/
def EdgeL (nodes : List Node) (l a b : Nat) : Prop := fwd nodes a l = some b

/-- `b` is strictly after `a` on the level-0 chain. -/
def R0 (nodes : List Node) : Nat → Nat → Prop := Relation.TransGen (EdgeL nodes 0)

/-- `b` equals `a` or is after it on the level-0 chain. -/
def R0R (nodes : List Node) : Nat → Nat → Prop := Relation.ReflTransGen (EdgeL nodes 0)

theorem EdgeL.det {nodes : List Node} {l a b c : Nat}
    (h₁ : EdgeL nodes l a b) (h₂ : EdgeL nodes l a c) : b = c := by
  unfold EdgeL at h₁ h₂
  rw [h₁] at h₂
  exact (Option.some.injEq ..).mp h₂

/-- Ends of nonempty chains are valid non-head node indices. -/
theorem reachL_bounds {nodes : List Node}
    (hptr : ∀ i l j, fwd nodes i l = some j → 0 < j ∧ j < nodes.length)
    {l a b : Nat} (h : Relation.TransGen (EdgeL nodes l) a b) :
    0 < b ∧ b < nodes.length := by
  induction h with
  | single h => exact hptr _ _ _ h
  | tail _ h _ => exact hptr _ _ _ h

/-- Keys strictly increase along any chain whose start is not the head. -/
theorem reachL_keyLt {nodes : List Node}
    (hptr : ∀ i l j, fwd nodes i l = some j → 0 < j ∧ j < nodes.length)
    (hsorted : ∀ i l j, fwd nodes i l = some j → 0 < i →
      listLt (keyAt nodes i) (keyAt nodes j))
    {l a b : Nat} (h : Relation.TransGen (EdgeL nodes l) a b) (ha : 0 < a) :
    listLt (keyAt nodes a) (keyAt nodes b) := by
  induction h with
  | single h => exact hsorted _ _ _ h ha
  | tail hr h ih =>
    exact listLt_trans ih (hsorted _ _ _ h (reachL_bounds hptr hr).1)

/-- Every chain is a sub-path of the level-0 chain. -/
theorem reachL_r0 {nodes : List Node}
    (hshort : ∀ i l j, fwd nodes i l = some j → R0 nodes i j)
    {l a b : Nat} (h : Relation.TransGen (EdgeL nodes l) a b) : R0 nodes a b := by
  induction h with
  | single h => exact hshort _ _ _ h
  | tail _ h ih => exact ih.trans (hshort _ _ _ h)

/-- Two reflexive-transitive extensions of a deterministic relation from one
source are comparable. -/
theorem rtg_det_tri {α : Type} {r : α → α → Prop}
    (det : ∀ a b c, r a b → r a c → b = c) {a b c : α}
    (hab : Relation.ReflTransGen r a b) (hac : Relation.ReflTransGen r a c) :
    Relation.ReflTransGen r b c ∨ Relation.ReflTransGen r c b := by
  induction hab with
  | refl => exact Or.inl hac
  | tail _ hstep ih =>
    rename_i b₀ b _
    rcases ih with h | h
    · rcases Relation.ReflTransGen.cases_head h with h' | ⟨d, hd, hdc⟩
      · exact Or.inr (h' ▸ Relation.ReflTransGen.single hstep)
      · exact Or.inl (det _ _ _ hstep hd ▸ hdc)
    · exact Or.inr (h.tail hstep)

/-- Trichotomy for positions on the level-0 chain. -/
theorem r0_tri {nodes : List Node} {a b c : Nat}
    (hab : R0 nodes a b) (hac : R0 nodes a c) :
    b = c ∨ R0 nodes b c ∨ R0 nodes c b := by
  have h := rtg_det_tri (r := EdgeL nodes 0) (fun _ _ _ h₁ h₂ => EdgeL.det h₁ h₂)
    hab.to_reflTransGen hac.to_reflTransGen
  rcases h with h | h
  · rcases (Relation.reflTransGen_iff_eq_or_transGen.mp h) with h' | h'
    · exact Or.inl h'.symm
    · exact Or.inr (Or.inl h')
  · rcases (Relation.reflTransGen_iff_eq_or_transGen.mp h) with h' | h'
    · exact Or.inl h'
    · exact Or.inr (Or.inr h')

/-- If `m` lies after `a` on the level-0 chain and `b` also lies after `a`
with a key smaller than `m`'s, then `m` lies after `b`. -/
theorem r0_between {nodes : List Node}
    (hptr : ∀ i l j, fwd nodes i l = some j → 0 < j ∧ j < nodes.length)
    (hsorted : ∀ i l j, fwd nodes i l = some j → 0 < i →
      listLt (keyAt nodes i) (keyAt nodes j))
    {a b m : Nat} (ham : R0 nodes a m) (hab : R0 nodes a b)
    (hlt : listLt (keyAt nodes b) (keyAt nodes m)) : R0 nodes b m := by
  rcases r0_tri hab ham with h | h | h
  · exact absurd (h ▸ hlt) (listLt_irrefl _)
  · exact h
  · have hm : 0 < m := (reachL_bounds hptr ham).1
    exact absurd (reachL_keyLt hptr hsorted h hm) (listLt_asymm hlt)

/-- Number of non-head nodes with a key strictly greater than `cur`'s (all of
them when `cur` is the head): an upper bound on the steps the advance loop can
still take from `cur`. -/
def walkMeasure (nodes : List Node) (cur : Nat) : Nat :=
  ((Finset.range nodes.length).filter
    (fun j => 0 < j ∧ (cur = 0 ∨ listLt (keyAt nodes cur) (keyAt nodes j)))).card

theorem walkMeasure_step {nodes : List Node}
    (hptr : ∀ i l j, fwd nodes i l = some j → 0 < j ∧ j < nodes.length)
    (hsorted : ∀ i l j, fwd nodes i l = some j → 0 < i →
      listLt (keyAt nodes i) (keyAt nodes j))
    {cur l next : Nat} (h : fwd nodes cur l = some next) :
    walkMeasure nodes next < walkMeasure nodes cur := by
  obtain ⟨hpos, hlen⟩ := hptr _ _ _ h
  apply Finset.card_lt_card
  have hsub : (Finset.range nodes.length).filter
      (fun j => 0 < j ∧ (next = 0 ∨ listLt (keyAt nodes next) (keyAt nodes j))) ⊆
      (Finset.range nodes.length).filter
      (fun j => 0 < j ∧ (cur = 0 ∨ listLt (keyAt nodes cur) (keyAt nodes j))) := by
    intro j hj
    simp only [Finset.mem_filter, Finset.mem_range] at hj ⊢
    obtain ⟨hjr, hjpos, hcase⟩ := hj
    refine ⟨hjr, hjpos, ?_⟩
    rcases hcase with h0 | hlt
    · omega
    · by_cases hc : cur = 0
      · exact Or.inl hc
      · exact Or.inr (listLt_trans (hsorted _ _ _ h (Nat.pos_of_ne_zero hc)) hlt)
  refine (Finset.ssubset_iff_of_subset hsub).mpr ⟨next, ?_, ?_⟩
  · simp only [Finset.mem_filter, Finset.mem_range]
    refine ⟨hlen, hpos, ?_⟩
    by_cases hc : cur = 0
    · exact Or.inl hc
    · exact Or.inr (hsorted _ _ _ h (Nat.pos_of_ne_zero hc))
  · simp only [Finset.mem_filter, Finset.mem_range, not_and, not_or]
    intro _ _
    exact ⟨by omega, listLt_irrefl _⟩

theorem walkMeasure_lt_len {nodes : List Node} (hlen : 0 < nodes.length) (cur : Nat) :
    walkMeasure nodes cur < nodes.length := by
  have hsub : (Finset.range nodes.length).filter
      (fun j => 0 < j ∧ (cur = 0 ∨ listLt (keyAt nodes cur) (keyAt nodes j))) ⊆
      (Finset.range nodes.length).erase 0 := by
    intro j hj
    simp only [Finset.mem_filter, Finset.mem_range] at hj
    simp only [Finset.mem_erase, Finset.mem_range]
    omega
  calc walkMeasure nodes cur ≤ ((Finset.range nodes.length).erase 0).card :=
        Finset.card_le_card hsub
    _ = nodes.length - 1 := by
        rw [Finset.card_erase_of_mem (by simpa using hlen), Finset.card_range]
    _ < nodes.length := by omega

/-- Full characterization of the advance loop, given enough fuel:  a `found`
result is an exact match reached along the level-`l` chain; a `stop` result is
the last chain node (from `cur` inclusive) with key less than the target, and
its successor, if any, has a strictly greater key. -/
theorem walk_spec {nodes : List Node} (k : Key) (l : Nat)
    (hptr : ∀ i l j, fwd nodes i l = some j → 0 < j ∧ j < nodes.length)
    (hsorted : ∀ i l j, fwd nodes i l = some j → 0 < i →
      listLt (keyAt nodes i) (keyAt nodes j)) :
    ∀ fuel cur, walkMeasure nodes cur < fuel →
      (∀ j, walkLevel nodes k l cur fuel = .found j →
        Relation.TransGen (EdgeL nodes l) cur j ∧ listCmp (keyAt nodes j) k = .eq) ∧
      (∀ p, walkLevel nodes k l cur fuel = .stop p →
        (p = cur ∨ (Relation.TransGen (EdgeL nodes l) cur p ∧ listLt (keyAt nodes p) k)) ∧
        ∀ q, fwd nodes p l = some q → listCmp (keyAt nodes q) k = .gt) := by
  intro fuel
  induction fuel with
  | zero => intro cur h; omega
  | succ fuel ih =>
    intro cur hm
    constructor
    · intro j hj
      rw [walkLevel] at hj
      cases hf : fwd nodes cur l with
      | none => simp [hf] at hj
      | some next =>
        cases hc : listCmp (keyAt nodes next) k with
        | lt =>
          simp only [hf, hc] at hj
          have hnext : walkMeasure nodes next < fuel :=
            lt_of_lt_of_le (walkMeasure_step hptr hsorted hf) (by omega)
          obtain ⟨hr, he⟩ := ((ih next hnext).1 j hj)
          exact ⟨hr.head hf, he⟩
        | eq =>
          simp only [hf, hc, WalkRes.found.injEq] at hj
          subst hj
          exact ⟨Relation.TransGen.single hf, hc⟩
        | gt => simp [hf, hc] at hj
    · intro p hp
      rw [walkLevel] at hp
      cases hf : fwd nodes cur l with
      | none =>
        simp only [hf, WalkRes.stop.injEq] at hp
        subst hp
        exact ⟨Or.inl rfl, fun q hq => by rw [hf] at hq; exact absurd hq (by simp)⟩
      | some next =>
        cases hc : listCmp (keyAt nodes next) k with
        | lt =>
          simp only [hf, hc] at hp
          have hnext : walkMeasure nodes next < fuel :=
            lt_of_lt_of_le (walkMeasure_step hptr hsorted hf) (by omega)
          obtain ⟨hloc, hq⟩ := ((ih next hnext).2 p hp)
          refine ⟨?_, hq⟩
          rcases hloc with rfl | ⟨hr, hk⟩
          · exact Or.inr ⟨Relation.TransGen.single hf, hc⟩
          · exact Or.inr ⟨hr.head hf, hk⟩
        | eq => simp [hf, hc] at hp
        | gt =>
          simp only [hf, hc, WalkRes.stop.injEq] at hp
          subst hp
          refine ⟨Or.inl rfl, fun q hq => ?_⟩
          have := EdgeL.det (l := l) hq hf
          rw [this]
          exact hc

/-- Distinct non-head nodes carry distinct keys. -/
theorem keys_unique {nodes : List Node}
    (hptr : ∀ i l j, fwd nodes i l = some j → 0 < j ∧ j < nodes.length)
    (hsorted : ∀ i l j, fwd nodes i l = some j → 0 < i →
      listLt (keyAt nodes i) (keyAt nodes j))
    (hcomplete : ∀ j, 0 < j → j < nodes.length → R0 nodes 0 j)
    {i j : Nat} (hi : 0 < i) (hilen : i < nodes.length)
    (hj : 0 < j) (hjlen : j < nodes.length)
    (hkey : keyAt nodes i = keyAt nodes j) : i = j := by
  rcases r0_tri (hcomplete i hi hilen) (hcomplete j hj hjlen) with h | h | h
  · exact h
  · exact absurd (hkey ▸ reachL_keyLt hptr hsorted h hi) (listLt_irrefl _)
  · exact absurd (hkey ▸ reachL_keyLt hptr hsorted h hj) (listLt_irrefl _)

/-! ### The skip-list structural invariant -/

/-- Structural invariant of the node arena: a single sentinel head of full
width; forward pointers in bounds and never pointing at the head; keys and
values present on all non-head nodes; chains strictly sorted by key; every
forward edge a shortcut over the level-0 chain; every non-head node on the
level-0 chain; head pointers above `clevel` unset. -/
structure NodesInv (nodes : List Node) (maxl clevel : Nat) : Prop where
  len_pos : 0 < nodes.length
  head_key : (nodes.getD 0 default).key = none
  head_value : (nodes.getD 0 default).value = none
  head_fwd_len : (nodes.getD 0 default).forward.length = maxl + 1
  ptr : ∀ i l j, fwd nodes i l = some j → 0 < j ∧ j < nodes.length
  tgt_level : ∀ i l j, fwd nodes i l = some j → l < (nodes.getD j default).forward.length
  key_some : ∀ i, 0 < i → i < nodes.length → (nodes.getD i default).key = some (keyAt nodes i)
  value_some : ∀ i, 0 < i → i < nodes.length → ∃ v, (nodes.getD i default).value = some v
  sorted : ∀ i l j, fwd nodes i l = some j → 0 < i → listLt (keyAt nodes i) (keyAt nodes j)
  shortcut : ∀ i l j, fwd nodes i l = some j → R0 nodes i j
  complete : ∀ j, 0 < j → j < nodes.length → R0 nodes 0 j
  high_none : ∀ l, clevel < l → fwd nodes 0 l = none

/-- The whole-state invariant of a `SkipList`. -/
def Inv (s : SkipList) : Prop :=
  s.head = 0 ∧ s.current_level ≤ s.max_level ∧ NodesInv s.nodes s.max_level s.current_level

/-- Node `i` stores the binding `k ↦ v`. -/
def KeyVal (s : SkipList) (k : Key) (v : Value) : Prop :=
  ∃ i, 0 < i ∧ i < s.nodes.length ∧ (s.nodes.getD i default).key = some k ∧
    (s.nodes.getD i default).value = some v

/-- Some node stores key `k`. -/
def HasKey (s : SkipList) (k : Key) : Prop :=
  ∃ i, 0 < i ∧ i < s.nodes.length ∧ (s.nodes.getD i default).key = some k

/-! ### Correctness of the `get` descent -/

theorem getAux_finds {nodes : List Node} {maxl clevel : Nat}
    (hinv : NodesInv nodes maxl clevel) {k : Key} {m : Nat} {vm : Value}
    (hm : 0 < m) (hmlen : m < nodes.length)
    (hkey : (nodes.getD m default).key = some k)
    (hval : (nodes.getD m default).value = some vm) :
    ∀ l cur, (cur = 0 ∨ (0 < cur ∧ listLt (keyAt nodes cur) k)) →
      R0 nodes cur m → getAux nodes k l cur = .ok vm := by
  have hkm : keyAt nodes m = k := by unfold keyAt; rw [hkey]; rfl
  intro l
  induction l with
  | zero =>
    intro cur hcur hr
    rw [getAux]
    have hw := walk_spec k 0 hinv.ptr hinv.sorted nodes.length cur
      (walkMeasure_lt_len hinv.len_pos cur)
    cases hwalk : walkLevel nodes k 0 cur nodes.length with
    | found j =>
      obtain ⟨hreach, heq⟩ := hw.1 j hwalk
      obtain ⟨hjpos, hjlen⟩ := reachL_bounds hinv.ptr hreach
      have hkj : keyAt nodes j = k := listCmp_eq_iff.mp heq
      have hjm : j = m := keys_unique hinv.ptr hinv.sorted hinv.complete
        hjpos hjlen hm hmlen (by rw [hkj, hkm])
      subst hjm
      rw [List.getD_eq_getElem?_getD] at hval
      simp [valueAt, hval]
    | stop p =>
      exfalso
      obtain ⟨hloc, hgt⟩ := hw.2 p hwalk
      have hpm : R0 nodes p m := by
        rcases hloc with rfl | ⟨hr0, hklt⟩
        · exact hr
        · exact r0_between hinv.ptr hinv.sorted hr hr0 (by rw [hkm]; exact hklt)
      rcases (Relation.TransGen.head'_iff.mp hpm) with ⟨d, hd, hdm⟩
      have hgtd := hgt d hd
      rcases Relation.reflTransGen_iff_eq_or_transGen.mp hdm with rfl | hdm'
      · rw [hkm] at hgtd
        exact absurd (listCmp_gt_iff_lt.mp hgtd) (listLt_irrefl _)
      · have hdpos : 0 < d := (hinv.ptr _ _ _ hd).1
        have := reachL_keyLt hinv.ptr hinv.sorted hdm' hdpos
        rw [hkm] at this
        exact absurd this (listLt_asymm (listCmp_gt_iff_lt.mp hgtd))
  | succ l ih =>
    intro cur hcur hr
    rw [getAux]
    have hw := walk_spec k (l + 1) hinv.ptr hinv.sorted nodes.length cur
      (walkMeasure_lt_len hinv.len_pos cur)
    cases hwalk : walkLevel nodes k (l + 1) cur nodes.length with
    | found j =>
      obtain ⟨hreach, heq⟩ := hw.1 j hwalk
      obtain ⟨hjpos, hjlen⟩ := reachL_bounds hinv.ptr hreach
      have hkj : keyAt nodes j = k := listCmp_eq_iff.mp heq
      have hjm : j = m := keys_unique hinv.ptr hinv.sorted hinv.complete
        hjpos hjlen hm hmlen (by rw [hkj, hkm])
      subst hjm
      rw [List.getD_eq_getElem?_getD] at hval
      simp [valueAt, hval]
    | stop p =>
      obtain ⟨hloc, _⟩ := hw.2 p hwalk
      rcases hloc with rfl | ⟨hr0, hklt⟩
      · exact ih p hcur hr
      · have hppos : 0 < p := (reachL_bounds hinv.ptr hr0).1
        have hpm : R0 nodes p m :=
          r0_between hinv.ptr hinv.sorted hr (reachL_r0 hinv.shortcut hr0)
            (by rw [hkm]; exact hklt)
        exact ih p (Or.inr ⟨hppos, hklt⟩) hpm

theorem getAux_notfound {nodes : List Node} {maxl clevel : Nat}
    (hinv : NodesInv nodes maxl clevel) {k : Key}
    (hnone : ∀ i, 0 < i → i < nodes.length → (nodes.getD i default).key ≠ some k) :
    ∀ l cur, getAux nodes k l cur = .error .KeyNotFound := by
  intro l
  induction l with
  | zero =>
    intro cur
    rw [getAux]
    have hw := walk_spec k 0 hinv.ptr hinv.sorted nodes.length cur
      (walkMeasure_lt_len hinv.len_pos cur)
    cases hwalk : walkLevel nodes k 0 cur nodes.length with
    | found j =>
      obtain ⟨hreach, heq⟩ := hw.1 j hwalk
      obtain ⟨hjpos, hjlen⟩ := reachL_bounds hinv.ptr hreach
      have hkj : keyAt nodes j = k := listCmp_eq_iff.mp heq
      exact absurd (hkj ▸ hinv.key_some j hjpos hjlen) (hnone j hjpos hjlen)
    | stop p => rfl
  | succ l ih =>
    intro cur
    rw [getAux]
    have hw := walk_spec k (l + 1) hinv.ptr hinv.sorted nodes.length cur
      (walkMeasure_lt_len hinv.len_pos cur)
    cases hwalk : walkLevel nodes k (l + 1) cur nodes.length with
    | found j =>
      obtain ⟨hreach, heq⟩ := hw.1 j hwalk
      obtain ⟨hjpos, hjlen⟩ := reachL_bounds hinv.ptr hreach
      have hkj : keyAt nodes j = k := listCmp_eq_iff.mp heq
      exact absurd (hkj ▸ hinv.key_some j hjpos hjlen) (hnone j hjpos hjlen)
    | stop p => exact ih p

/-- `get` returns the stored value of any present key. -/
theorem get_found {s : SkipList} {k : Key} {v : Value} (hInv : Inv s)
    (hkv : KeyVal s k v) : s.get k = .ok v := by
  obtain ⟨hhead, _, hinv⟩ := hInv
  obtain ⟨m, hm, hmlen, hkey, hval⟩ := hkv
  rw [SkipList.get, hhead]
  exact getAux_finds hinv hm hmlen hkey hval s.current_level 0 (Or.inl rfl)
    (hinv.complete m hm hmlen)

/-- `get` returns `KeyNotFound` on any absent key. -/
theorem get_notfound {s : SkipList} {k : Key} (hInv : Inv s)
    (hk : ¬ HasKey s k) : s.get k = .error .KeyNotFound := by
  obtain ⟨hhead, _, hinv⟩ := hInv
  rw [SkipList.get, hhead]
  exact getAux_notfound hinv
    (fun i hi hilen hkey => hk ⟨i, hi, hilen, hkey⟩) s.current_level 0

/-! ### Characterization of the `put` search phase -/

theorem getD_set_self {α : Type} (l : List α) (i : Nat) (v d : α) (h : i < l.length) :
    (l.set i v).getD i d = v := by
  simp [List.getD_eq_getElem?_getD, List.getElem?_set, h]

theorem getD_set_other {α : Type} (l : List α) {i j : Nat} (v d : α) (h : i ≠ j) :
    (l.set i v).getD j d = l.getD j d := by
  simp [List.getD_eq_getElem?_getD, List.getElem?_set, h]

/-- What `put` records in `update_buffer[i]`: the index `p` of the last node
before the insertion point at level `i` — the head, or a node whose key is
less than the target and whose level-`i` successor (if any) has a key greater
than the target. -/
def StopProp (nodes : List Node) (k : Key) (i p : Nat) : Prop :=
  (p = 0 ∨ (0 < p ∧ p < nodes.length ∧ listLt (keyAt nodes p) k)) ∧
  (p = 0 ∨ i < (nodes.getD p default).forward.length) ∧
  (∀ q, fwd nodes p i = some q → listCmp (keyAt nodes q) k = .gt)

theorem putSearch_inr_key {nodes : List Node} {maxl clevel : Nat}
    (hinv : NodesInv nodes maxl clevel) {k : Key} :
    ∀ l cur buf j, putSearch nodes k l cur buf = .inr j →
      0 < j ∧ j < nodes.length ∧ (nodes.getD j default).key = some k := by
  intro l
  induction l with
  | zero =>
    intro cur buf j h
    rw [putSearch] at h
    have hw := walk_spec k 0 hinv.ptr hinv.sorted nodes.length cur
      (walkMeasure_lt_len hinv.len_pos cur)
    cases hwalk : walkLevel nodes k 0 cur nodes.length with
    | found j' =>
      rw [hwalk] at h
      simp only [Sum.inr.injEq] at h
      subst h
      obtain ⟨hreach, heq⟩ := hw.1 j' hwalk
      obtain ⟨hjpos, hjlen⟩ := reachL_bounds hinv.ptr hreach
      exact ⟨hjpos, hjlen, (listCmp_eq_iff.mp heq) ▸ hinv.key_some j' hjpos hjlen⟩
    | stop p => rw [hwalk] at h; simp at h
  | succ l ih =>
    intro cur buf j h
    rw [putSearch] at h
    have hw := walk_spec k (l + 1) hinv.ptr hinv.sorted nodes.length cur
      (walkMeasure_lt_len hinv.len_pos cur)
    cases hwalk : walkLevel nodes k (l + 1) cur nodes.length with
    | found j' =>
      rw [hwalk] at h
      simp only [Sum.inr.injEq] at h
      subst h
      obtain ⟨hreach, heq⟩ := hw.1 j' hwalk
      obtain ⟨hjpos, hjlen⟩ := reachL_bounds hinv.ptr hreach
      exact ⟨hjpos, hjlen, (listCmp_eq_iff.mp heq) ▸ hinv.key_some j' hjpos hjlen⟩
    | stop p =>
      rw [hwalk] at h
      exact ih p _ j h

/-- If the target key is present, the `put` search finds it. -/
theorem putSearch_finds {nodes : List Node} {maxl clevel : Nat}
    (hinv : NodesInv nodes maxl clevel) {k : Key} {m : Nat}
    (hkey : (nodes.getD m default).key = some k) :
    ∀ l cur buf, (cur = 0 ∨ (0 < cur ∧ listLt (keyAt nodes cur) k)) →
      R0 nodes cur m → ∃ j, putSearch nodes k l cur buf = .inr j := by
  have hkm : keyAt nodes m = k := by unfold keyAt; rw [hkey]; rfl
  intro l
  induction l with
  | zero =>
    intro cur buf hcur hr
    rw [putSearch]
    have hw := walk_spec k 0 hinv.ptr hinv.sorted nodes.length cur
      (walkMeasure_lt_len hinv.len_pos cur)
    cases hwalk : walkLevel nodes k 0 cur nodes.length with
    | found j => exact ⟨j, rfl⟩
    | stop p =>
      exfalso
      obtain ⟨hloc, hgt⟩ := hw.2 p hwalk
      have hpm : R0 nodes p m := by
        rcases hloc with rfl | ⟨hr0, hklt⟩
        · exact hr
        · exact r0_between hinv.ptr hinv.sorted hr hr0 (by rw [hkm]; exact hklt)
      rcases (Relation.TransGen.head'_iff.mp hpm) with ⟨d, hd, hdm⟩
      have hgtd := hgt d hd
      rcases Relation.reflTransGen_iff_eq_or_transGen.mp hdm with rfl | hdm'
      · rw [hkm] at hgtd
        exact absurd (listCmp_gt_iff_lt.mp hgtd) (listLt_irrefl _)
      · have hdpos : 0 < d := (hinv.ptr _ _ _ hd).1
        have := reachL_keyLt hinv.ptr hinv.sorted hdm' hdpos
        rw [hkm] at this
        exact absurd this (listLt_asymm (listCmp_gt_iff_lt.mp hgtd))
  | succ l ih =>
    intro cur buf hcur hr
    rw [putSearch]
    have hw := walk_spec k (l + 1) hinv.ptr hinv.sorted nodes.length cur
      (walkMeasure_lt_len hinv.len_pos cur)
    cases hwalk : walkLevel nodes k (l + 1) cur nodes.length with
    | found j => exact ⟨j, rfl⟩
    | stop p =>
      obtain ⟨hloc, _⟩ := hw.2 p hwalk
      rcases hloc with rfl | ⟨hr0, hklt⟩
      · exact ih p _ hcur hr
      · have hppos : 0 < p := (reachL_bounds hinv.ptr hr0).1
        have hpm : R0 nodes p m :=
          r0_between hinv.ptr hinv.sorted hr (reachL_r0 hinv.shortcut hr0)
            (by rw [hkm]; exact hklt)
        exact ih p _ (Or.inr ⟨hppos, hklt⟩) hpm

/-- Full characterization of the recorded update buffer when the `put` search
terminates without finding the key. -/
theorem putSearch_inl_spec {nodes : List Node} {maxl clevel : Nat}
    (hinv : NodesInv nodes maxl clevel) {k : Key} :
    ∀ l cur buf bufout,
      (cur = 0 ∨ (0 < cur ∧ cur < nodes.length ∧ listLt (keyAt nodes cur) k)) →
      (cur = 0 ∨ l < (nodes.getD cur default).forward.length) →
      l < buf.length →
      putSearch nodes k l cur buf = .inl bufout →
      bufout.length = buf.length ∧
      (∀ i, l < i → bufout.getD i none = buf.getD i none) ∧
      (∀ i, i ≤ l → ∃ p, bufout.getD i none = some p ∧ StopProp nodes k i p) ∧
      (∀ i, i < l → ((bufout.getD (i + 1) none).getD 0 = (bufout.getD i none).getD 0 ∨
        Relation.TransGen (EdgeL nodes i) ((bufout.getD (i + 1) none).getD 0)
          ((bufout.getD i none).getD 0))) ∧
      ((bufout.getD l none).getD 0 = cur ∨
        Relation.TransGen (EdgeL nodes l) cur ((bufout.getD l none).getD 0)) := by
  intro l
  induction l with
  | zero =>
    intro cur buf bufout hcur hcurlen hlen h
    rw [putSearch] at h
    have hw := walk_spec k 0 hinv.ptr hinv.sorted nodes.length cur
      (walkMeasure_lt_len hinv.len_pos cur)
    cases hwalk : walkLevel nodes k 0 cur nodes.length with
    | found j => rw [hwalk] at h; simp at h
    | stop p =>
      rw [hwalk] at h
      simp only [Sum.inl.injEq] at h
      subst h
      obtain ⟨hloc, hgt⟩ := hw.2 p hwalk
      have hstop : StopProp nodes k 0 p := by
        refine ⟨?_, ?_, hgt⟩
        · rcases hloc with rfl | ⟨hr0, hklt⟩
          · rcases hcur with h0 | ⟨hpos, hlt', hkey'⟩
            · exact Or.inl h0
            · exact Or.inr ⟨hpos, hlt', hkey'⟩
          · obtain ⟨hppos, hplen⟩ := reachL_bounds hinv.ptr hr0
            exact Or.inr ⟨hppos, hplen, hklt⟩
        · rcases hloc with rfl | ⟨hr0, _⟩
          · rcases hcurlen with h0 | hl
            · exact Or.inl h0
            · exact Or.inr hl
          · rcases Relation.TransGen.tail'_iff.mp hr0 with ⟨b, _, hb⟩
            exact Or.inr (hinv.tgt_level _ _ _ hb)
      refine ⟨List.length_set .., ?_, ?_, ?_, ?_⟩
      · intro i hi
        exact getD_set_other _ _ _ (by omega)
      · intro i hi
        have hi0 : i = 0 := by omega
        subst hi0
        exact ⟨p, getD_set_self _ _ _ _ hlen, hstop⟩
      · intro i hi; omega
      · rw [getD_set_self _ _ _ _ hlen]
        rcases hloc with rfl | ⟨hr0, _⟩
        · exact Or.inl rfl
        · exact Or.inr hr0
  | succ l ih =>
    intro cur buf bufout hcur hcurlen hlen h
    rw [putSearch] at h
    have hw := walk_spec k (l + 1) hinv.ptr hinv.sorted nodes.length cur
      (walkMeasure_lt_len hinv.len_pos cur)
    cases hwalk : walkLevel nodes k (l + 1) cur nodes.length with
    | found j => rw [hwalk] at h; simp at h
    | stop p =>
      rw [hwalk] at h
      obtain ⟨hloc, hgt⟩ := hw.2 p hwalk
      have hpcur : (p = 0 ∨ (0 < p ∧ p < nodes.length ∧ listLt (keyAt nodes p) k)) := by
        rcases hloc with rfl | ⟨hr0, hklt⟩
        · exact hcur
        · obtain ⟨hppos, hplen⟩ := reachL_bounds hinv.ptr hr0
          exact Or.inr ⟨hppos, hplen, hklt⟩
      have hplvl : (p = 0 ∨ l + 1 < (nodes.getD p default).forward.length) := by
        rcases hloc with rfl | ⟨hr0, _⟩
        · exact hcurlen
        · rcases Relation.TransGen.tail'_iff.mp hr0 with ⟨b, _, hb⟩
          exact Or.inr (hinv.tgt_level _ _ _ hb)
      have hstop : StopProp nodes k (l + 1) p :=
        ⟨hpcur, hplvl, hgt⟩
      have hlen' : l < (buf.set (l + 1) (some p)).length := by
        rw [List.length_set]; omega
      obtain ⟨hL, hAbove, hEntries, hAdj, hTop⟩ := ih p (buf.set (l + 1) (some p)) bufout
        hpcur (by rcases hplvl with h0 | hl; exact Or.inl h0; exact Or.inr (by omega))
        hlen' h
      have hTopEntry : bufout.getD (l + 1) none = some p := by
        rw [hAbove (l + 1) (by omega), getD_set_self _ _ _ _ (by omega)]
      refine ⟨by rw [hL, List.length_set], ?_, ?_, ?_, ?_⟩
      · intro i hi
        rw [hAbove i (by omega), getD_set_other _ _ _ (by omega)]
      · intro i hi
        rcases Nat.lt_or_ge i (l + 1) with hi' | hi'
        · exact hEntries i (by omega)
        · have : i = l + 1 := by omega
          subst this
          exact ⟨p, hTopEntry, hstop⟩
      · intro i hi
        rcases Nat.lt_or_ge i l with hi' | hi'
        · exact hAdj i hi'
        · have : i = l := by omega
          subst this
          rw [hTopEntry]
          simp only [Option.getD_some]
          rcases hTop with h' | h'
          · exact Or.inl h'.symm
          · exact Or.inr h'
      · rw [hTopEntry]
        simp only [Option.getD_some]
        rcases hloc with rfl | ⟨hr0, _⟩
        · exact Or.inl rfl
        · exact Or.inr hr0

/-! ### The splice phase: pointwise characterization -/

theorem setFwd_length (nodes : List Node) (i l : Nat) (v : Option Nat) :
    (setFwd nodes i l v).length = nodes.length := by
  unfold setFwd; exact List.length_set ..

theorem setFwd_node_eq (nodes : List Node) (i l : Nat) (v : Option Nat) (x : Nat)
    (h : i ≠ x) :
    (setFwd nodes i l v).getD x default = nodes.getD x default := by
  unfold setFwd; exact getD_set_other _ _ _ h

theorem setFwd_key (nodes : List Node) (i l : Nat) (v : Option Nat) (x : Nat) :
    ((setFwd nodes i l v).getD x default).key = (nodes.getD x default).key := by
  unfold setFwd
  by_cases h : i = x
  · subst h
    by_cases hl : i < nodes.length
    · rw [getD_set_self _ _ _ _ hl]
    · rw [List.set_eq_of_length_le (le_of_not_lt hl)]
  · rw [getD_set_other _ _ _ h]

theorem setFwd_value (nodes : List Node) (i l : Nat) (v : Option Nat) (x : Nat) :
    ((setFwd nodes i l v).getD x default).value = (nodes.getD x default).value := by
  unfold setFwd
  by_cases h : i = x
  · subst h
    by_cases hl : i < nodes.length
    · rw [getD_set_self _ _ _ _ hl]
    · rw [List.set_eq_of_length_le (le_of_not_lt hl)]
  · rw [getD_set_other _ _ _ h]

theorem setFwd_fwdLen (nodes : List Node) (i l : Nat) (v : Option Nat) (x : Nat) :
    ((setFwd nodes i l v).getD x default).forward.length =
      ((nodes.getD x default)).forward.length := by
  unfold setFwd
  by_cases h : i = x
  · subst h
    by_cases hl : i < nodes.length
    · rw [getD_set_self _ _ _ _ hl]
      exact List.length_set ..
    · rw [List.set_eq_of_length_le (le_of_not_lt hl)]
  · rw [getD_set_other _ _ _ h]

theorem fwd_setFwd (nodes : List Node) {i l : Nat} (v : Option Nat)
    (hi : i < nodes.length) (hl : l < (nodes.getD i default).forward.length)
    (x l' : Nat) :
    fwd (setFwd nodes i l v) x l' =
      if x = i ∧ l' = l then v else fwd nodes x l' := by
  unfold fwd setFwd
  by_cases hx : i = x
  · subst hx
    rw [getD_set_self _ _ _ _ hi]
    by_cases hll : l' = l
    · subst hll
      simp only [and_true, if_pos rfl]
      exact getD_set_self _ _ _ _ hl
    · simp only [hll, and_false, if_false]
      exact getD_set_other _ _ _ (fun h => hll h.symm)
  · rw [getD_set_other _ _ _ hx, if_neg (fun h => hx h.1.symm)]

theorem keyAt_eq_of_key_eq {nodes nodes' : List Node} {x : Nat}
    (h : (nodes'.getD x default).key = (nodes.getD x default).key) :
    keyAt nodes' x = keyAt nodes x := by
  unfold keyAt; rw [h]

theorem default_node_key : (default : Node).key = none := rfl

theorem default_node_value : (default : Node).value = none := rfl

theorem default_node_forward : (default : Node).forward = [] := rfl

theorem getD_append_new (nodes : List Node) (nd : Node) :
    ∀ x, ((nodes ++ [nd]).getD x default) =
      if x = nodes.length then nd else nodes.getD x default := by
  intro x
  rcases Nat.lt_trichotomy x nodes.length with hx | hx | hx
  · rw [List.getD_append _ _ _ _ hx, if_neg (by omega)]
  · subst hx
    rw [List.getD_eq_getElem?_getD, List.getElem?_concat_length, if_pos rfl]
    rfl
  · rw [List.getD_eq_getElem?_getD (nodes ++ [nd]) x _,
      List.getElem?_eq_none (by simp; omega), if_neg (by omega),
      List.getD_eq_getElem?_getD nodes x _, List.getElem?_eq_none (by omega)]

/-- Appending the fresh node (all of whose forward slots are `None`) does not
change any `forward` reads. -/
theorem fwd_append_new (nodes : List Node) (k : Key) (v : Value) (level : Nat) :
    ∀ x l, fwd (nodes ++ [Node.mk (some k) (some v) (List.replicate (level + 1) none)]) x l
      = fwd nodes x l := by
  intro x l
  unfold fwd
  rw [getD_append_new]
  by_cases hx : x = nodes.length
  · rw [if_pos hx]
    subst hx
    rw [List.getD_eq_getElem?_getD nodes nodes.length _,
      List.getElem?_eq_none (le_refl _)]
    show (List.replicate (level + 1) none).getD l none = _
    simp only [Option.getD_none, default_node_forward]
    rcases Nat.lt_or_ge l (level + 1) with hl | hl
    · simp [List.getD_eq_getElem?_getD, List.getElem?_replicate, hl]
    · simp [List.getD_eq_getElem?_getD, List.getElem?_replicate, Nat.not_lt.mpr hl]
  · rw [if_neg hx]

/-- The predecessor recorded for level `i`: `update_buffer[i].unwrap_or(head)`
with `head = 0`. -/
@[reducible]
def bufP (buf : List (Option Nat)) (i : Nat) : Nat := (buf.getD i none).getD 0

theorem spliceUpto_length (buf : List (Option Nat)) (h n : Nat) (nodes1 : List Node) :
    ∀ j, (spliceUpto buf h n nodes1 j).length = nodes1.length := by
  intro j
  induction j with
  | zero =>
    simp only [spliceUpto, spliceStep]
    rw [setFwd_length, setFwd_length]
  | succ j ih =>
    simp only [spliceUpto, spliceStep]
    rw [setFwd_length, setFwd_length, ih]

theorem spliceUpto_key (buf : List (Option Nat)) (h n : Nat) (nodes1 : List Node) :
    ∀ j x, ((spliceUpto buf h n nodes1 j).getD x default).key =
      (nodes1.getD x default).key := by
  intro j x
  induction j with
  | zero =>
    simp only [spliceUpto, spliceStep]
    rw [setFwd_key, setFwd_key]
  | succ j ih =>
    simp only [spliceUpto, spliceStep]
    rw [setFwd_key, setFwd_key, ih]

theorem spliceUpto_value (buf : List (Option Nat)) (h n : Nat) (nodes1 : List Node) :
    ∀ j x, ((spliceUpto buf h n nodes1 j).getD x default).value =
      (nodes1.getD x default).value := by
  intro j x
  induction j with
  | zero =>
    simp only [spliceUpto, spliceStep]
    rw [setFwd_value, setFwd_value]
  | succ j ih =>
    simp only [spliceUpto, spliceStep]
    rw [setFwd_value, setFwd_value, ih]

theorem spliceUpto_fwdLen (buf : List (Option Nat)) (h n : Nat) (nodes1 : List Node) :
    ∀ j x, ((spliceUpto buf h n nodes1 j).getD x default).forward.length =
      (nodes1.getD x default).forward.length := by
  intro j x
  induction j with
  | zero =>
    simp only [spliceUpto, spliceStep]
    rw [setFwd_fwdLen, setFwd_fwdLen]
  | succ j ih =>
    simp only [spliceUpto, spliceStep]
    rw [setFwd_fwdLen, setFwd_fwdLen, ih]

/-- Pointwise effect of the whole splice loop, processed up to level `j`:
the new node's slot `l` holds the old successor of the recorded predecessor
`bufP buf l`, the predecessor's slot `l` points at the new node, and
everything else is unchanged. -/
theorem spliceUpto_fwd {nodes nodes1 : List Node} {maxl level : Nat}
    {buf : List (Option Nat)} {k : Key}
    (hnpos : 0 < nodes.length)
    (hn1 : nodes.length < nodes1.length)
    (hfwd1 : ∀ x l, fwd nodes1 x l = fwd nodes x l)
    (hlen1 : ∀ x, x ≠ nodes.length →
      ((nodes1.getD x default)).forward.length = ((nodes.getD x default)).forward.length)
    (hlenN : ((nodes1.getD nodes.length default)).forward.length = level + 1)
    (hheadw : ((nodes.getD 0 default)).forward.length = maxl + 1)
    (hmaxl : level ≤ maxl)
    (hbuf : ∀ i, i ≤ level → bufP buf i = 0 ∨
      (0 < bufP buf i ∧ bufP buf i < nodes.length ∧ listLt (keyAt nodes (bufP buf i)) k))
    (hbufw : ∀ i, i ≤ level → bufP buf i = 0 ∨
      i < ((nodes.getD (bufP buf i) default)).forward.length) :
    ∀ j, j ≤ level → ∀ x l,
      fwd (spliceUpto buf 0 nodes.length nodes1 j) x l =
        if l ≤ j ∧ x = nodes.length then fwd nodes (bufP buf l) l
        else if l ≤ j ∧ x = bufP buf l then some nodes.length
        else fwd nodes x l := by
  have hupd_lt : ∀ i, i ≤ level → bufP buf i < nodes.length := by
    intro i hi
    rcases hbuf i hi with h0 | ⟨_, hlt, _⟩
    · omega
    · exact hlt
  have hupd_w1 : ∀ i, i ≤ level →
      i < ((nodes1.getD (bufP buf i) default)).forward.length := by
    intro i hi
    have hne : bufP buf i ≠ nodes.length := by have := hupd_lt i hi; omega
    rw [hlen1 _ hne]
    rcases hbufw i hi with h0 | hw
    · rw [h0, hheadw]; omega
    · exact hw
  have hupd_ne_n : ∀ i, i ≤ level → bufP buf i ≠ nodes.length := by
    intro i hi; have := hupd_lt i hi; omega
  intro j
  induction j with
  | zero =>
    intro _ x l
    show fwd (spliceStep buf 0 nodes.length nodes1 0) x l = _
    rw [spliceStep]
    have h1 : fwd (setFwd nodes1 nodes.length 0
        (fwd nodes1 (bufP buf 0) 0)) x l =
        if x = nodes.length ∧ l = 0 then fwd nodes1 (bufP buf 0) 0 else fwd nodes1 x l :=
      fwd_setFwd nodes1 _ hn1 (by rw [hlenN]; omega) x l
    have hulen : (setFwd nodes1 nodes.length 0
        (fwd nodes1 (bufP buf 0) 0)).length = nodes1.length := setFwd_length ..
    have hulenw : ((setFwd nodes1 nodes.length 0
        (fwd nodes1 (bufP buf 0) 0)).getD (bufP buf 0) default).forward.length =
        ((nodes1.getD (bufP buf 0) default)).forward.length := setFwd_fwdLen ..
    have h2 : fwd (setFwd (setFwd nodes1 nodes.length 0 (fwd nodes1 (bufP buf 0) 0))
        (bufP buf 0) 0 (some nodes.length)) x l =
        if x = bufP buf 0 ∧ l = 0 then some nodes.length
        else fwd (setFwd nodes1 nodes.length 0 (fwd nodes1 (bufP buf 0) 0)) x l := by
      refine fwd_setFwd _ _ ?_ ?_ x l
      · rw [hulen]; exact lt_trans (hupd_lt 0 (by omega)) hn1
      · rw [hulenw]; exact hupd_w1 0 (by omega)
    show fwd (setFwd (setFwd nodes1 nodes.length 0 (fwd nodes1 (bufP buf 0) 0))
        (bufP buf 0) 0 (some nodes.length)) x l = _
    rw [h2, h1]
    simp only [hfwd1]
    by_cases hl0 : l = 0
    · subst hl0
      by_cases hxn : x = nodes.length
      · subst hxn
        rw [if_neg (fun hh => (hupd_ne_n 0 (by omega)) hh.1.symm),
          if_pos ⟨rfl, rfl⟩, if_pos ⟨le_refl _, rfl⟩]
      · by_cases hxp : x = bufP buf 0
        · rw [if_pos ⟨hxp, rfl⟩, if_neg (fun hh => hxn hh.2), if_pos ⟨le_refl _, hxp⟩]
        · rw [if_neg (fun hh => hxp hh.1), if_neg (fun hh => hxn hh.1),
            if_neg (fun hh => hxn hh.2), if_neg (fun hh => hxp hh.2)]
    · rw [if_neg (fun hh => hl0 hh.2), if_neg (fun hh => hl0 hh.2),
        if_neg (fun hh => hl0 (by omega)), if_neg (fun hh => hl0 (by omega))]
  | succ j ih =>
    intro hj x l
    have ihj := ih (by omega)
    show fwd (spliceStep buf 0 nodes.length (spliceUpto buf 0 nodes.length nodes1 j)
      (j + 1)) x l = _
    rw [spliceStep]
    set sj := spliceUpto buf 0 nodes.length nodes1 j with hsj
    have hsjlen : sj.length = nodes1.length := spliceUpto_length ..
    have hsjw : ∀ y, ((sj.getD y default)).forward.length =
        ((nodes1.getD y default)).forward.length := fun y => spliceUpto_fwdLen ..
    have hread : fwd sj (bufP buf (j + 1)) (j + 1) = fwd nodes (bufP buf (j + 1)) (j + 1) := by
      rw [ihj _ _, if_neg (by omega), if_neg (by omega)]
    have h1 : fwd (setFwd sj nodes.length (j + 1) (fwd sj (bufP buf (j + 1)) (j + 1))) x l =
        if x = nodes.length ∧ l = j + 1 then fwd sj (bufP buf (j + 1)) (j + 1)
        else fwd sj x l := by
      refine fwd_setFwd _ _ ?_ ?_ x l
      · rw [hsjlen]; exact hn1
      · rw [hsjw, hlenN]; omega
    have hulen : (setFwd sj nodes.length (j + 1)
        (fwd sj (bufP buf (j + 1)) (j + 1))).length = nodes1.length := by
      rw [setFwd_length, hsjlen]
    have hulenw : ((setFwd sj nodes.length (j + 1) (fwd sj (bufP buf (j + 1)) (j + 1))).getD
        (bufP buf (j + 1)) default).forward.length =
        ((nodes1.getD (bufP buf (j + 1)) default)).forward.length := by
      rw [setFwd_fwdLen, hsjw]
    have h2 : fwd (setFwd (setFwd sj nodes.length (j + 1) (fwd sj (bufP buf (j + 1)) (j + 1)))
        (bufP buf (j + 1)) (j + 1) (some nodes.length)) x l =
        if x = bufP buf (j + 1) ∧ l = j + 1 then some nodes.length
        else fwd (setFwd sj nodes.length (j + 1) (fwd sj (bufP buf (j + 1)) (j + 1))) x l := by
      refine fwd_setFwd _ _ ?_ ?_ x l
      · rw [hulen]; exact lt_trans (hupd_lt (j + 1) hj) hn1
      · rw [hulenw]; exact hupd_w1 (j + 1) hj
    rw [h2, h1, hread]
    by_cases hl : l = j + 1
    · subst hl
      by_cases hxn : x = nodes.length
      · subst hxn
        rw [if_neg (fun hh => (hupd_ne_n (j + 1) hj) hh.1.symm), if_pos ⟨rfl, rfl⟩,
          if_pos ⟨le_refl _, rfl⟩]
      · by_cases hxp : x = bufP buf (j + 1)
        · rw [if_pos ⟨hxp, rfl⟩, if_neg (fun hh => hxn hh.2), if_pos ⟨le_refl _, hxp⟩]
        · rw [if_neg (fun hh => hxp hh.1), if_neg (fun hh => hxn hh.1),
            ihj _ _, if_neg (by omega), if_neg (by omega),
            if_neg (fun hh => hxn hh.2), if_neg (fun hh => hxp hh.2)]
    · rw [if_neg (fun hh => hl hh.2), if_neg (fun hh => hl hh.2), ihj _ _]
      by_cases hlj : l ≤ j
      · by_cases hxn : x = nodes.length
        · rw [if_pos ⟨hlj, hxn⟩, if_pos ⟨by omega, hxn⟩]
        · by_cases hxp : x = bufP buf l
          · rw [if_neg (fun hh => hxn hh.2), if_pos ⟨hlj, hxp⟩,
              if_neg (fun hh => hxn hh.2), if_pos ⟨by omega, hxp⟩]
          · rw [if_neg (fun hh => hxn hh.2), if_neg (fun hh => hxp hh.2),
              if_neg (fun hh => hxn hh.2), if_neg (fun hh => hxp hh.2)]
      · rw [if_neg (fun hh => hlj hh.1), if_neg (fun hh => hlj hh.1),
          if_neg (fun hh => hl (by omega)), if_neg (fun hh => hl (by omega))]

theorem fwd_oob {nodes : List Node} {x : Nat} (h : nodes.length ≤ x) :
    ∀ l, fwd nodes x l = none := by
  intro l
  unfold fwd
  rw [List.getD_eq_getElem?_getD nodes x _, List.getElem?_eq_none h]
  rfl

theorem raiseUpto_length (h n cl : Nat) (nodes2 : List Node) :
    ∀ j, (raiseUpto h n cl nodes2 j).length = nodes2.length := by
  intro j
  induction j with
  | zero => rfl
  | succ j ih =>
    simp only [raiseUpto]
    by_cases hc : j + 1 ≤ cl
    · rw [if_pos hc]
    · rw [if_neg hc, setFwd_length, ih]

theorem raiseUpto_key (h n cl : Nat) (nodes2 : List Node) :
    ∀ j x, ((raiseUpto h n cl nodes2 j).getD x default).key =
      (nodes2.getD x default).key := by
  intro j x
  induction j with
  | zero => rfl
  | succ j ih =>
    simp only [raiseUpto]
    by_cases hc : j + 1 ≤ cl
    · rw [if_pos hc]
    · rw [if_neg hc, setFwd_key, ih]

theorem raiseUpto_value (h n cl : Nat) (nodes2 : List Node) :
    ∀ j x, ((raiseUpto h n cl nodes2 j).getD x default).value =
      (nodes2.getD x default).value := by
  intro j x
  induction j with
  | zero => rfl
  | succ j ih =>
    simp only [raiseUpto]
    by_cases hc : j + 1 ≤ cl
    · rw [if_pos hc]
    · rw [if_neg hc, setFwd_value, ih]

theorem raiseUpto_fwdLen (h n cl : Nat) (nodes2 : List Node) :
    ∀ j x, ((raiseUpto h n cl nodes2 j).getD x default).forward.length =
      (nodes2.getD x default).forward.length := by
  intro j x
  induction j with
  | zero => rfl
  | succ j ih =>
    simp only [raiseUpto]
    by_cases hc : j + 1 ≤ cl
    · rw [if_pos hc]
    · rw [if_neg hc, setFwd_fwdLen, ih]

/-- Pointwise effect of the `current_level`-raising loop: head slots
`cl+1 ..= j` now point at the new node; everything else is unchanged. -/
theorem raiseUpto_fwd {nodes2 : List Node} {n cl jmax : Nat}
    (h0 : 0 < nodes2.length)
    (hw : jmax < ((nodes2.getD 0 default)).forward.length) :
    ∀ j, j ≤ jmax → ∀ x l,
      fwd (raiseUpto 0 n cl nodes2 j) x l =
        if x = 0 ∧ cl < l ∧ l ≤ j then some n else fwd nodes2 x l := by
  intro j
  induction j with
  | zero =>
    intro _ x l
    rw [raiseUpto, if_neg (by omega)]
  | succ j ih =>
    intro hj x l
    simp only [raiseUpto]
    by_cases hc : j + 1 ≤ cl
    · rw [if_pos hc, if_neg (by omega)]
    · rw [if_neg hc]
      have hlen : 0 < (raiseUpto 0 n cl nodes2 j).length := by
        rw [raiseUpto_length]; exact h0
      have hwid : j + 1 < ((raiseUpto 0 n cl nodes2 j).getD 0 default).forward.length := by
        rw [raiseUpto_fwdLen]; omega
      rw [fwd_setFwd _ _ hlen hwid x l]
      by_cases hx : x = 0 ∧ l = j + 1
      · rw [if_pos hx, if_pos ⟨hx.1, by omega, by omega⟩]
      · rw [if_neg hx, ih (by omega) x l]
        by_cases hy : x = 0 ∧ cl < l ∧ l ≤ j
        · rw [if_pos hy, if_pos ⟨hy.1, hy.2.1, by omega⟩]
        · rw [if_neg hy, if_neg (fun hz => ?_)]
          rcases Nat.lt_or_ge l (j + 1) with hl | hl
          · exact hy ⟨hz.1, hz.2.1, by omega⟩
          · exact hx ⟨hz.1, by omega⟩

/-- Inserting a fresh node (spliced in as characterized by `hfwd3`) preserves
the structural invariant. -/
theorem insert_nodesInv {nodes : List Node} {maxl clevel level : Nat} {k : Key} {v : Value}
    (hinv : NodesInv nodes maxl clevel)
    {nodes3 : List Node} {P : Nat → Nat}
    (hlen3 : nodes3.length = nodes.length + 1)
    (hkey3 : ∀ x, (nodes3.getD x default).key =
      if x = nodes.length then some k else (nodes.getD x default).key)
    (hval3 : ∀ x, (nodes3.getD x default).value =
      if x = nodes.length then some v else (nodes.getD x default).value)
    (hflen3 : ∀ x, ((nodes3.getD x default)).forward.length =
      if x = nodes.length then level + 1 else ((nodes.getD x default)).forward.length)
    (hfwd3 : ∀ x l, fwd nodes3 x l =
      if l ≤ level ∧ x = nodes.length then fwd nodes (P l) l
      else if l ≤ level ∧ x = P l then some nodes.length
      else fwd nodes x l)
    (hP : ∀ i, i ≤ level → P i = 0 ∨
      (0 < P i ∧ P i < nodes.length ∧ listLt (keyAt nodes (P i)) k))
    (hPgt : ∀ i, i ≤ level → ∀ q, fwd nodes (P i) i = some q →
      listCmp (keyAt nodes q) k = .gt)
    (hPchain : ∀ i, i ≤ level → R0R nodes (P i) (P 0)) :
    NodesInv nodes3 maxl (max clevel level) := by
  have hnpos : 0 < nodes.length := hinv.len_pos
  have hPn : ∀ i, i ≤ level → P i ≠ nodes.length := by
    intro i hi
    rcases hP i hi with h0 | ⟨_, hlt, _⟩ <;> omega
  have hkeyAt3 : ∀ x, keyAt nodes3 x = if x = nodes.length then k else keyAt nodes x := by
    intro x
    unfold keyAt
    rw [hkey3 x]
    by_cases hx : x = nodes.length
    · rw [if_pos hx, if_pos hx]; rfl
    · rw [if_neg hx, if_neg hx]
  have edge3 : ∀ x l j, fwd nodes3 x l = some j →
      (l ≤ level ∧ x = nodes.length ∧ fwd nodes (P l) l = some j) ∨
      (l ≤ level ∧ x = P l ∧ x ≠ nodes.length ∧ j = nodes.length) ∨
      (fwd nodes x l = some j ∧ x ≠ nodes.length) := by
    intro x l j h
    rw [hfwd3 x l] at h
    by_cases h1 : l ≤ level ∧ x = nodes.length
    · rw [if_pos h1] at h
      exact Or.inl ⟨h1.1, h1.2, h⟩
    · rw [if_neg h1] at h
      by_cases h2 : l ≤ level ∧ x = P l
      · rw [if_pos h2] at h
        refine Or.inr (Or.inl ⟨h2.1, h2.2, fun hx => h1 ⟨h2.1, hx⟩, (Option.some.injEq ..).mp h.symm⟩)
      · rw [if_neg h2] at h
        refine Or.inr (Or.inr ⟨h, fun hx => ?_⟩)
        have := fwd_oob (le_of_eq hx.symm) l
        rw [this] at h
        exact absurd h (by simp)
  have simedge : ∀ a b, EdgeL nodes 0 a b → R0 nodes3 a b := by
    intro a b h
    have h' : fwd nodes a 0 = some b := h
    have halt : a < nodes.length := by
      by_contra hge
      rw [fwd_oob (le_of_not_lt hge) 0] at h'
      exact absurd h' (by simp)
    by_cases hap : a = P 0
    · have ed1 : fwd nodes3 a 0 = some nodes.length := by
        rw [hfwd3 a 0, if_neg (fun hh => by omega), if_pos ⟨by omega, hap⟩]
      have ed2 : fwd nodes3 nodes.length 0 = some b := by
        rw [hfwd3 nodes.length 0, if_pos ⟨by omega, rfl⟩, ← hap]
        exact h'
      exact Relation.TransGen.head ed1 (Relation.TransGen.single ed2)
    · have ed : fwd nodes3 a 0 = some b := by
        rw [hfwd3 a 0, if_neg (fun hh => by omega), if_neg (fun hh => hap hh.2)]
        exact h'
      exact Relation.TransGen.single ed
  have sim : ∀ a b, R0 nodes a b → R0 nodes3 a b := by
    intro a b h
    induction h with
    | single h => exact simedge _ _ h
    | tail _ h2 ih => exact ih.trans (simedge _ _ h2)
  have edP0n : fwd nodes3 (P 0) 0 = some nodes.length := by
    have hne : P 0 ≠ nodes.length := hPn 0 (by omega)
    rw [hfwd3 (P 0) 0, if_neg (fun hh => hne hh.2), if_pos ⟨by omega, rfl⟩]
  have reach_n : ∀ i, i ≤ level → R0 nodes3 (P i) nodes.length := by
    intro i hi
    rcases Relation.reflTransGen_iff_eq_or_transGen.mp (hPchain i hi) with heq | htg
    · rw [← heq]
      exact Relation.TransGen.single edP0n
    · exact (sim _ _ htg).tail edP0n
  have reach_from_n : ∀ l j, l ≤ level → fwd nodes (P l) l = some j →
      R0 nodes3 nodes.length j := by
    intro l j hl hedge
    have hjpos : 0 < j := (hinv.ptr _ _ _ hedge).1
    have hjgt := hPgt l hl j hedge
    have hjr0 : R0 nodes (P l) j := hinv.shortcut _ _ _ hedge
    have hstep : R0 nodes (P 0) j → R0 nodes3 nodes.length j := by
      intro hr
      rcases Relation.TransGen.head'_iff.mp hr with ⟨d, hd, hdj⟩
      have edn : fwd nodes3 nodes.length 0 = some d := by
        rw [hfwd3 nodes.length 0, if_pos ⟨by omega, rfl⟩]
        exact hd
      rcases Relation.reflTransGen_iff_eq_or_transGen.mp hdj with heq | htg
      · rw [heq]
        exact Relation.TransGen.single edn
      · exact Relation.TransGen.head edn (sim _ _ htg)
    rcases Relation.reflTransGen_iff_eq_or_transGen.mp (hPchain l hl) with heq | htg
    · exact hstep (heq ▸ hjr0)
    · rcases r0_tri hjr0 htg with heq' | hr | hr
      · exfalso
        rcases hP 0 (by omega) with h0 | ⟨_, _, hklt⟩
        · rw [h0] at heq'; omega
        · rw [heq'] at hjgt
          exact absurd (listCmp_gt_iff_lt.mp hjgt) (listLt_asymm hklt)
      · exfalso
        have hP0pos : 0 < P 0 := (reachL_bounds hinv.ptr hr).1
        rcases hP 0 (by omega) with h0 | ⟨_, _, hklt⟩
        · omega
        · have hlt1 : listLt (keyAt nodes j) (keyAt nodes (P 0)) :=
            reachL_keyLt hinv.ptr hinv.sorted hr hjpos
          have hlt2 : listLt (keyAt nodes j) k := listLt_trans hlt1 hklt
          exact absurd hlt2 (listLt_asymm (listCmp_gt_iff_lt.mp hjgt))
      · exact hstep hr
  refine ⟨?_, ?_, ?_, ?_, ?_, ?_, ?_, ?_, ?_, ?_, ?_, ?_⟩
  · -- len_pos
    omega
  · -- head_key
    rw [hkey3 0, if_neg (by omega)]
    exact hinv.head_key
  · -- head_value
    rw [hval3 0, if_neg (by omega)]
    exact hinv.head_value
  · -- head_fwd_len
    rw [hflen3 0, if_neg (by omega)]
    exact hinv.head_fwd_len
  · -- ptr
    intro x l j h
    rcases edge3 x l j h with ⟨_, _, he⟩ | ⟨_, _, _, rfl⟩ | ⟨he, _⟩
    · have := hinv.ptr _ _ _ he; omega
    · omega
    · have := hinv.ptr _ _ _ he; omega
  · -- tgt_level
    intro x l j h
    rcases edge3 x l j h with ⟨hl, _, he⟩ | ⟨hl, _, _, rfl⟩ | ⟨he, _⟩
    · have hj := hinv.ptr _ _ _ he
      rw [hflen3 j, if_neg (by omega)]
      exact hinv.tgt_level _ _ _ he
    · rw [hflen3 nodes.length, if_pos rfl]
      omega
    · have hj := hinv.ptr _ _ _ he
      rw [hflen3 j, if_neg (by omega)]
      exact hinv.tgt_level _ _ _ he
  · -- key_some
    intro i hi hilen
    rw [hkey3 i, hkeyAt3 i]
    by_cases hx : i = nodes.length
    · rw [if_pos hx, if_pos hx]
    · rw [if_neg hx, if_neg hx]
      exact hinv.key_some i hi (by omega)
  · -- value_some
    intro i hi hilen
    rw [hval3 i]
    by_cases hx : i = nodes.length
    · exact ⟨v, by rw [if_pos hx]⟩
    · rw [if_neg hx]
      exact hinv.value_some i hi (by omega)
  · -- sorted
    intro x l j h hx
    rcases edge3 x l j h with ⟨hl, rfl, he⟩ | ⟨hl, hxp, hxne, rfl⟩ | ⟨he, hxne⟩
    · have hj := hinv.ptr _ _ _ he
      rw [hkeyAt3 j, if_neg (by omega), hkeyAt3 nodes.length, if_pos rfl]
      exact listCmp_gt_iff_lt.mp (hPgt l hl j he)
    · rw [hkeyAt3 nodes.length, if_pos rfl, hkeyAt3 x, if_neg hxne]
      rcases hP l hl with h0 | ⟨_, _, hklt⟩
      · rw [hxp] at hx; omega
      · rw [hxp]; exact hklt
    · have hj := hinv.ptr _ _ _ he
      rw [hkeyAt3 j, if_neg (by omega), hkeyAt3 x, if_neg hxne]
      exact hinv.sorted _ _ _ he hx
  · -- shortcut
    intro x l j h
    rcases edge3 x l j h with ⟨hl, rfl, he⟩ | ⟨hl, hxp, hxne, rfl⟩ | ⟨he, hxne⟩
    · exact reach_from_n l j hl he
    · rw [hxp]
      exact reach_n l hl
    · exact sim _ _ (hinv.shortcut _ _ _ he)
  · -- complete
    intro j hj hjlen
    rcases Nat.lt_or_ge j nodes.length with hlt | hge
    · exact sim _ _ (hinv.complete j hj hlt)
    · have hj' : j = nodes.length := by omega
      subst hj'
      rcases hP 0 (by omega) with h0 | ⟨hppos, hplt, _⟩
      · rw [← h0]
        exact Relation.TransGen.single edP0n
      · exact (sim _ _ (hinv.complete _ hppos hplt)).tail edP0n
  · -- high_none
    intro l hl
    rw [hfwd3 0 l, if_neg (by omega), if_neg (by omega)]
    exact hinv.high_none l (by omega)

theorem r0_of_fwd_eq {nodes nodes' : List Node}
    (h : ∀ x l, fwd nodes' x l = fwd nodes x l) {a b : Nat}
    (hr : R0 nodes a b) : R0 nodes' a b := by
  induction hr with
  | single h1 => exact Relation.TransGen.single (show fwd nodes' _ 0 = _ by rw [h]; exact h1)
  | tail _ h2 ih => exact ih.tail (show fwd nodes' _ 0 = _ by rw [h]; exact h2)

/-- Replacing the value stored in one non-head node preserves the structural
invariant. -/
theorem nodesInv_value_update {nodes : List Node} {maxl clevel : Nat}
    (hinv : NodesInv nodes maxl clevel) {j : Nat} (v : Value)
    (hjpos : 0 < j) (hjlen : j < nodes.length) :
    NodesInv (nodes.set j { nodes.getD j default with value := some v }) maxl clevel := by
  set nodes' := nodes.set j { nodes.getD j default with value := some v } with hn'
  have hnode' : ∀ x, nodes'.getD x default =
      if x = j then { nodes.getD j default with value := some v }
      else nodes.getD x default := by
    intro x
    by_cases hx : x = j
    · subst hx
      rw [if_pos rfl, hn', getD_set_self _ _ _ _ hjlen]
    · rw [if_neg hx, hn', getD_set_other _ _ _ (fun h => hx h.symm)]
  have hlen' : nodes'.length = nodes.length := List.length_set ..
  have hkey' : ∀ x, (nodes'.getD x default).key = (nodes.getD x default).key := by
    intro x
    rw [hnode' x]
    by_cases hx : x = j
    · subst hx; rw [if_pos rfl]
    · rw [if_neg hx]
  have hkeyAt' : ∀ x, keyAt nodes' x = keyAt nodes x := by
    intro x; unfold keyAt; rw [hkey' x]
  have hflen' : ∀ x, (nodes'.getD x default).forward.length =
      (nodes.getD x default).forward.length := by
    intro x
    rw [hnode' x]
    by_cases hx : x = j
    · subst hx; rw [if_pos rfl]
    · rw [if_neg hx]
  have hfwd' : ∀ x l, fwd nodes' x l = fwd nodes x l := by
    intro x l
    unfold fwd
    rw [hnode' x]
    by_cases hx : x = j
    · subst hx; rw [if_pos rfl]
    · rw [if_neg hx]
  refine ⟨?_, ?_, ?_, ?_, ?_, ?_, ?_, ?_, ?_, ?_, ?_, ?_⟩
  · rw [hlen']; exact hinv.len_pos
  · rw [hkey' 0]; exact hinv.head_key
  · rw [hnode' 0, if_neg (by omega)]; exact hinv.head_value
  · rw [hflen' 0]; exact hinv.head_fwd_len
  · intro x l j' h
    rw [hfwd'] at h
    rw [hlen']
    exact hinv.ptr _ _ _ h
  · intro x l j' h
    rw [hfwd'] at h
    rw [hflen']
    exact hinv.tgt_level _ _ _ h
  · intro i hi hilen
    rw [hkey' i, hkeyAt' i]
    exact hinv.key_some i hi (by rw [hlen'] at hilen; exact hilen)
  · intro i hi hilen
    rw [hnode' i]
    by_cases hx : i = j
    · exact ⟨v, by rw [if_pos hx]⟩
    · rw [if_neg hx]
      exact hinv.value_some i hi (by rw [hlen'] at hilen; exact hilen)
  · intro x l j' h hx
    rw [hfwd'] at h
    rw [hkeyAt', hkeyAt']
    exact hinv.sorted _ _ _ h hx
  · intro x l j' h
    rw [hfwd'] at h
    exact r0_of_fwd_eq hfwd' (hinv.shortcut _ _ _ h)
  · intro j' hj' hjlen'
    rw [hlen'] at hjlen'
    exact r0_of_fwd_eq hfwd' (hinv.complete _ hj' hjlen')
  · intro l hl
    rw [hfwd']
    exact hinv.high_none l hl

/-- Full functional specification of `SkipList::put`:  the invariant is
preserved, the call returns `Ok(())`, `max_level` is unchanged, and the
key-value bindings are those of the original list with `k` now bound to
`v`. -/
theorem putLevel_spec {s : SkipList} (k : Key) (v : Value) {level : Nat}
    (hInv : Inv s) (hlev : level ≤ s.max_level) :
    Inv (s.putLevel k v level).1 ∧
    (s.putLevel k v level).2 = Except.ok () ∧
    (s.putLevel k v level).1.max_level = s.max_level ∧
    (∀ k' v', KeyVal (s.putLevel k v level).1 k' v' ↔
      ((k' = k ∧ v' = v) ∨ (k' ≠ k ∧ KeyVal s k' v'))) := by
  obtain ⟨hhead, hcl, hinv⟩ := hInv
  cases hps : putSearch s.nodes k s.current_level s.head
      (List.replicate (s.max_level + 1) none) with
  | inr j =>
    obtain ⟨hjpos, hjlen, hjkey⟩ := putSearch_inr_key hinv _ _ _ j hps
    have hjkeyAt : keyAt s.nodes j = k := by unfold keyAt; rw [hjkey]; rfl
    have hred : s.putLevel k v level =
        ({ s with nodes := s.nodes.set j { s.nodes.getD j default with value := some v } },
          Except.ok ()) := by
      rw [SkipList.putLevel, hps]
    rw [hred]
    refine ⟨⟨hhead, hcl, nodesInv_value_update hinv v hjpos hjlen⟩, rfl, rfl, ?_⟩
    intro k' v'
    constructor
    · rintro ⟨i, hipos, hilen, hikey, hival⟩
      have hilen' : i < s.nodes.length := by
        rw [List.length_set] at hilen; exact hilen
      by_cases hij : i = j
      · subst hij
        rw [getD_set_self _ _ _ _ hjlen] at hikey hival
        have hikey' : (s.nodes.getD i default).key = some k' := hikey
        rw [hjkey] at hikey'
        have hk : k' = k := ((Option.some.injEq ..).mp hikey').symm
        have hv : v' = v :=
          ((Option.some.injEq ..).mp (show some v = some v' from hival)).symm
        exact Or.inl ⟨hk, hv⟩
      · rw [getD_set_other _ _ _ (fun h => hij h.symm)] at hikey hival
        have hne : k' ≠ k := by
          intro hk
          subst hk
          have : keyAt s.nodes i = keyAt s.nodes j := by
            unfold keyAt; rw [hikey, hjkey]
          exact hij (keys_unique hinv.ptr hinv.sorted hinv.complete
            hipos hilen' hjpos hjlen this)
        exact Or.inr ⟨hne, i, hipos, hilen', hikey, hival⟩
    · rintro (⟨rfl, rfl⟩ | ⟨hne, i, hipos, hilen, hikey, hival⟩)
      · refine ⟨j, hjpos, by rw [List.length_set]; exact hjlen, ?_, ?_⟩
        · rw [getD_set_self _ _ _ _ hjlen]
          exact hjkey
        · rw [getD_set_self _ _ _ _ hjlen]
      · have hij : i ≠ j := by
          intro h
          subst h
          rw [hikey] at hjkey
          exact hne ((Option.some.injEq ..).mp hjkey)
        refine ⟨i, hipos, by rw [List.length_set]; exact hilen, ?_, ?_⟩
        · rw [getD_set_other _ _ _ (fun h => hij h.symm)]
          exact hikey
        · rw [getD_set_other _ _ _ (fun h => hij h.symm)]
          exact hival
  | inl buf =>
    obtain ⟨hL, hAbove, hEntries, hAdj, _⟩ := putSearch_inl_spec hinv s.current_level s.head
      (List.replicate (s.max_level + 1) none) buf (Or.inl hhead) (Or.inl hhead)
      (by rw [List.length_replicate]; omega) hps
    have hrep : ∀ i, (List.replicate (s.max_level + 1) (none : Option Nat)).getD i none
        = none := by
      intro i
      rcases Nat.lt_or_ge i (s.max_level + 1) with hi | hi
      · simp [List.getD_eq_getElem?_getD, List.getElem?_replicate, hi]
      · simp [List.getD_eq_getElem?_getD, List.getElem?_replicate, Nat.not_lt.mpr hi]
    have hPdef : ∀ i, s.current_level < i → bufP buf i = 0 := by
      intro i hi
      show (buf.getD i none).getD 0 = 0
      rw [hAbove i hi, hrep i]
      rfl
    have hPstop : ∀ i, i ≤ s.current_level → StopProp s.nodes k i (bufP buf i) := by
      intro i hi
      obtain ⟨p, hp, hstop⟩ := hEntries i hi
      show StopProp s.nodes k i ((buf.getD i none).getD 0)
      rw [hp]
      exact hstop
    have hPb : ∀ i, i ≤ level → bufP buf i = 0 ∨
        (0 < bufP buf i ∧ bufP buf i < s.nodes.length ∧
          listLt (keyAt s.nodes (bufP buf i)) k) := by
      intro i _
      rcases le_or_lt i s.current_level with hic | hic
      · rcases (hPstop i hic).1 with h0 | hb
        · exact Or.inl h0
        · exact Or.inr hb
      · exact Or.inl (hPdef i hic)
    have hPw : ∀ i, i ≤ level → bufP buf i = 0 ∨
        i < ((s.nodes.getD (bufP buf i) default)).forward.length := by
      intro i _
      rcases le_or_lt i s.current_level with hic | hic
      · exact (hPstop i hic).2.1
      · exact Or.inl (hPdef i hic)
    have hPgt : ∀ i, i ≤ level → ∀ q, fwd s.nodes (bufP buf i) i = some q →
        listCmp (keyAt s.nodes q) k = .gt := by
      intro i _ q hq
      rcases le_or_lt i s.current_level with hic | hic
      · exact (hPstop i hic).2.2 q hq
      · rw [hPdef i hic, hinv.high_none i hic] at hq
        exact absurd hq (by simp)
    have hPchain : ∀ i, i ≤ level → R0R s.nodes (bufP buf i) (bufP buf 0) := by
      have hchain_le : ∀ i, i ≤ s.current_level →
          R0R s.nodes (bufP buf i) (bufP buf 0) := by
        intro i
        induction i with
        | zero => intro _; exact Relation.ReflTransGen.refl
        | succ i ih =>
          intro hi
          have hstep : R0R s.nodes (bufP buf (i + 1)) (bufP buf i) := by
            rcases hAdj i (by omega) with heq | htg
            · show R0R s.nodes ((buf.getD (i + 1) none).getD 0) ((buf.getD i none).getD 0)
              rw [heq]
              exact Relation.ReflTransGen.refl
            · exact (reachL_r0 hinv.shortcut htg).to_reflTransGen
          exact hstep.trans (ih (by omega))
      intro i hi
      rcases le_or_lt i s.current_level with hic | hic
      · exact hchain_le i hic
      · rw [hPdef i hic]
        rcases hPb 0 (by omega) with h0 | ⟨hppos, hplt, _⟩
        · rw [h0]
          exact Relation.ReflTransGen.refl
        · exact (hinv.complete _ hppos hplt).to_reflTransGen
    have hnok : ∀ i, 0 < i → i < s.nodes.length →
        (s.nodes.getD i default).key ≠ some k := by
      intro i hi hilen hkey
      obtain ⟨j, hj⟩ := putSearch_finds hinv hkey s.current_level s.head
        (List.replicate (s.max_level + 1) none) (Or.inl hhead)
        (by rw [hhead]; exact hinv.complete i hi hilen)
      rw [hps] at hj
      exact absurd hj (by simp)
    have hred : s.putLevel k v level =
        ({ s with
            nodes := (if s.current_level < level then
              raiseUpto s.head s.nodes.length s.current_level
                (spliceUpto buf s.head s.nodes.length
                  (s.nodes ++ [Node.mk (some k) (some v) (List.replicate (level + 1) none)])
                  level) level
            else
              spliceUpto buf s.head s.nodes.length
                (s.nodes ++ [Node.mk (some k) (some v) (List.replicate (level + 1) none)])
                level),
            current_level := max s.current_level level }, Except.ok ()) := by
      rw [SkipList.putLevel, hps]
    rw [hhead] at hred
    set nodes1 := s.nodes ++ [Node.mk (some k) (some v) (List.replicate (level + 1) none)]
      with hnodes1
    set nodes2 := spliceUpto buf 0 s.nodes.length nodes1 level with hnodes2
    set nodes3 := (if s.current_level < level then
      raiseUpto 0 s.nodes.length s.current_level nodes2 level else nodes2) with hnodes3
    have hfwd1 : ∀ x l, fwd nodes1 x l = fwd s.nodes x l := fwd_append_new s.nodes k v level
    have hgetD1 : ∀ x, nodes1.getD x default =
        if x = s.nodes.length then Node.mk (some k) (some v) (List.replicate (level + 1) none)
        else s.nodes.getD x default := getD_append_new s.nodes _
    have hlen1 : nodes1.length = s.nodes.length + 1 := by
      rw [hnodes1, List.length_append, List.length_singleton]
    have hlen1' : ∀ x, x ≠ s.nodes.length →
        ((nodes1.getD x default)).forward.length =
        ((s.nodes.getD x default)).forward.length := by
      intro x hx
      rw [hgetD1 x, if_neg hx]
    have hlenN : ((nodes1.getD s.nodes.length default)).forward.length = level + 1 := by
      rw [hgetD1 _, if_pos rfl]
      exact List.length_replicate ..
    have hfwd2 : ∀ x l, fwd nodes2 x l =
        if l ≤ level ∧ x = s.nodes.length then fwd s.nodes (bufP buf l) l
        else if l ≤ level ∧ x = bufP buf l then some s.nodes.length
        else fwd s.nodes x l := by
      intro x l
      exact spliceUpto_fwd hinv.len_pos (by omega) hfwd1 hlen1' hlenN hinv.head_fwd_len
        hlev hPb hPw level (le_refl level) x l
    have hfwd3 : ∀ x l, fwd nodes3 x l =
        if l ≤ level ∧ x = s.nodes.length then fwd s.nodes (bufP buf l) l
        else if l ≤ level ∧ x = bufP buf l then some s.nodes.length
        else fwd s.nodes x l := by
      intro x l
      rw [hnodes3]
      by_cases hcmp : s.current_level < level
      · rw [if_pos hcmp]
        have h0 : 0 < nodes2.length := by
          rw [hnodes2, spliceUpto_length, hlen1]; omega
        have hw : level < ((nodes2.getD 0 default)).forward.length := by
          rw [hnodes2, spliceUpto_fwdLen, hgetD1 0, if_neg (by have := hinv.len_pos; omega),
            hinv.head_fwd_len]
          omega
        rw [raiseUpto_fwd h0 hw level (le_refl level) x l]
        by_cases hx : x = 0 ∧ s.current_level < l ∧ l ≤ level
        · rw [if_pos hx, if_neg (by have := hinv.len_pos; omega),
            if_pos ⟨hx.2.2, by rw [hPdef l hx.2.1]; exact hx.1⟩]
        · rw [if_neg hx, hfwd2 x l]
      · rw [if_neg hcmp]
        exact hfwd2 x l
    have hkey3 : ∀ x, (nodes3.getD x default).key =
        if x = s.nodes.length then some k else (s.nodes.getD x default).key := by
      intro x
      have h2 : (nodes2.getD x default).key = (nodes1.getD x default).key := by
        rw [hnodes2]; exact spliceUpto_key ..
      have h3 : (nodes3.getD x default).key = (nodes2.getD x default).key := by
        rw [hnodes3]
        by_cases hcmp : s.current_level < level
        · rw [if_pos hcmp]; exact raiseUpto_key ..
        · rw [if_neg hcmp]
      rw [h3, h2, hgetD1 x]
      by_cases hx : x = s.nodes.length
      · rw [if_pos hx, if_pos hx]
      · rw [if_neg hx, if_neg hx]
    have hval3 : ∀ x, (nodes3.getD x default).value =
        if x = s.nodes.length then some v else (s.nodes.getD x default).value := by
      intro x
      have h2 : (nodes2.getD x default).value = (nodes1.getD x default).value := by
        rw [hnodes2]; exact spliceUpto_value ..
      have h3 : (nodes3.getD x default).value = (nodes2.getD x default).value := by
        rw [hnodes3]
        by_cases hcmp : s.current_level < level
        · rw [if_pos hcmp]; exact raiseUpto_value ..
        · rw [if_neg hcmp]
      rw [h3, h2, hgetD1 x]
      by_cases hx : x = s.nodes.length
      · rw [if_pos hx, if_pos hx]
      · rw [if_neg hx, if_neg hx]
    have hflen3 : ∀ x, ((nodes3.getD x default)).forward.length =
        if x = s.nodes.length then level + 1
        else ((s.nodes.getD x default)).forward.length := by
      intro x
      have h2 : ((nodes2.getD x default)).forward.length =
          ((nodes1.getD x default)).forward.length := by
        rw [hnodes2]; exact spliceUpto_fwdLen ..
      have h3 : ((nodes3.getD x default)).forward.length =
          ((nodes2.getD x default)).forward.length := by
        rw [hnodes3]
        by_cases hcmp : s.current_level < level
        · rw [if_pos hcmp]; exact raiseUpto_fwdLen ..
        · rw [if_neg hcmp]
      rw [h3, h2, hgetD1 x]
      by_cases hx : x = s.nodes.length
      · rw [if_pos hx, if_pos hx]
        exact List.length_replicate ..
      · rw [if_neg hx, if_neg hx]
    have hlen3 : nodes3.length = s.nodes.length + 1 := by
      rw [hnodes3]
      by_cases hcmp : s.current_level < level
      · rw [if_pos hcmp, raiseUpto_length, hnodes2, spliceUpto_length, hlen1]
      · rw [if_neg hcmp, hnodes2, spliceUpto_length, hlen1]
    have hinv3 : NodesInv nodes3 s.max_level (max s.current_level level) :=
      insert_nodesInv hinv hlen3 hkey3 hval3 hflen3 hfwd3 hPb hPgt hPchain
    rw [hred]
    refine ⟨⟨rfl, by show max s.current_level level ≤ s.max_level; omega, hinv3⟩,
      rfl, rfl, ?_⟩
    intro k' v'
    constructor
    · rintro ⟨i, hipos, hilen, hikey, hival⟩
      have hilenA : i < nodes3.length := hilen
      have hilen3 : i < s.nodes.length + 1 := by rw [← hlen3]; exact hilenA
      rw [hkey3 i] at hikey
      rw [hval3 i] at hival
      by_cases hin : i = s.nodes.length
      · rw [if_pos hin] at hikey hival
        exact Or.inl ⟨(Option.some.injEq ..).mp hikey.symm,
          (Option.some.injEq ..).mp hival.symm⟩
      · rw [if_neg hin] at hikey hival
        have hilt : i < s.nodes.length := by omega
        have hne : k' ≠ k := by
          intro hk
          subst hk
          exact hnok i hipos hilt hikey
        exact Or.inr ⟨hne, i, hipos, hilt, hikey, hival⟩
    · rintro (⟨rfl, rfl⟩ | ⟨hne, i, hipos, hilen, hikey, hival⟩)
      · refine ⟨s.nodes.length, hinv.len_pos,
          by show s.nodes.length < nodes3.length; omega, ?_, ?_⟩
        · rw [hkey3 _, if_pos rfl]
        · rw [hval3 _, if_pos rfl]
      · have hin : i ≠ s.nodes.length := by omega
        refine ⟨i, hipos, by show i < nodes3.length; omega, ?_, ?_⟩
        · rw [hkey3 i, if_neg hin]; exact hikey
        · rw [hval3 i, if_neg hin]; exact hival

/-- The freshly created skip list satisfies the invariant. -/
theorem inv_new (ml : Nat) : Inv (SkipList.new ml) := by
  have hf : ∀ i l, fwd (SkipList.new ml).nodes i l = none := by
    intro i l
    unfold fwd SkipList.new
    cases i with
    | zero =>
      show (List.replicate (ml + 1) (none : Option Nat)).getD l none = none
      rcases Nat.lt_or_ge l (ml + 1) with hl | hl
      · simp [List.getD_eq_getElem?_getD, List.getElem?_replicate, hl]
      · simp [List.getD_eq_getElem?_getD, List.getElem?_replicate, Nat.not_lt.mpr hl]
    | succ i =>
      rw [List.getD_eq_getElem?_getD _ (i + 1) _, List.getElem?_eq_none (by simp)]
      rfl
  refine ⟨rfl, Nat.zero_le ml, ?_, ?_, ?_, ?_, ?_, ?_, ?_, ?_, ?_, ?_, ?_, ?_⟩
  · simp [SkipList.new]
  · rfl
  · rfl
  · exact List.length_replicate ..
  · intro i l j h
    rw [hf] at h
    exact absurd h (by simp)
  · intro i l j h
    rw [hf] at h
    exact absurd h (by simp)
  · intro i hi hilen
    simp [SkipList.new] at hilen
    omega
  · intro i hi hilen
    simp [SkipList.new] at hilen
    omega
  · intro i l j h
    rw [hf] at h
    exact absurd h (by simp)
  · intro i l j h
    rw [hf] at h
    exact absurd h (by simp)
  · intro j hj hjlen
    simp [SkipList.new] at hjlen
    omega
  · intro l _
    exact hf 0 l

theorem keyVal_new (ml : Nat) (k : Key) (v : Value) : ¬ KeyVal (SkipList.new ml) k v := by
  rintro ⟨i, hi, hilen, _, _⟩
  simp [SkipList.new] at hilen
  omega

/-- `specLookup` with an arbitrary fold accumulator. -/
theorem specLookup_foldl (ops : List (Key × Value)) (k : Key) :
    ∀ i : Option Value,
      ops.foldl (fun acc q => if q.1 = k then some q.2 else acc) i =
        match specLookup ops k with
        | some v => some v
        | none => i := by
  induction ops with
  | nil => intro i; rfl
  | cons q ops ih =>
    intro i
    show (ops.foldl _ (if q.1 = k then some q.2 else i)) = _
    rw [ih (if q.1 = k then some q.2 else i)]
    have hq : specLookup (q :: ops) k =
        match specLookup ops k with
        | some v => some v
        | none => if q.1 = k then some q.2 else none := by
      show (ops.foldl _ (if q.1 = k then some q.2 else none)) = _
      rw [ih (if q.1 = k then some q.2 else none)]
    rw [hq]
    cases specLookup ops k with
    | some v => rfl
    | none =>
      by_cases hqk : q.1 = k
      · rw [if_pos hqk, if_pos hqk]
      · rw [if_neg hqk, if_neg hqk]

theorem specLookup_cons (q : Key × Value) (ops : List (Key × Value)) (k : Key) :
    specLookup (q :: ops) k =
      match specLookup ops k with
      | some v => some v
      | none => if q.1 = k then some q.2 else none := by
  show (ops.foldl _ (if q.1 = k then some q.2 else none)) = _
  rw [specLookup_foldl ops k (if q.1 = k then some q.2 else none)]

theorem specLookup_absent (ops : List (Key × Value)) (k : Key)
    (h : ∀ q ∈ ops, q.1 ≠ k) : specLookup ops k = none := by
  induction ops with
  | nil => rfl
  | cons q ops ih =>
    rw [specLookup_cons]
    rw [ih (fun q' hq' => h q' (List.mem_cons_of_mem _ hq'))]
    exact if_neg (h q (List.mem_cons_self ..))

/-- `max_level` is never changed by `put`. -/
theorem putLevel_max_level (s : SkipList) (k : Key) (v : Value) (level : Nat) :
    (s.putLevel k v level).1.max_level = s.max_level := by
  rw [SkipList.putLevel]
  cases putSearch s.nodes k s.current_level s.head
      (List.replicate (s.max_level + 1) none) with
  | inl buf => rfl
  | inr j => rfl

/-- Main induction: a sequence of `put`s starting from an invariant-satisfying
state yields an invariant-satisfying state whose bindings are the fold of the
operations over the initial bindings. -/
theorem applyOps_spec (ops : List (Key × Value × Nat)) :
    ∀ s, Inv s → (∀ op ∈ ops, op.2.2 ≤ s.max_level) →
      Inv (applyOps ops s) ∧
      (applyOps ops s).max_level = s.max_level ∧
      (∀ k v, KeyVal (applyOps ops s) k v ↔
        (specLookup (ops.map fun o => (o.1, o.2.1)) k = some v ∨
          (specLookup (ops.map fun o => (o.1, o.2.1)) k = none ∧ KeyVal s k v))) := by
  induction ops with
  | nil =>
    intro s hInv _
    refine ⟨hInv, rfl, ?_⟩
    intro k v
    show KeyVal s k v ↔ (none = some v ∨ ((none : Option Value) = none ∧ KeyVal s k v))
    constructor
    · intro h; exact Or.inr ⟨rfl, h⟩
    · rintro (h | ⟨_, h⟩)
      · exact absurd h (by simp)
      · exact h
  | cons op ops ih =>
    intro s hInv hops
    obtain ⟨k₀, v₀, lvl⟩ := op
    have hlev : lvl ≤ s.max_level := hops _ (List.mem_cons_self ..)
    obtain ⟨hInv', hok, hml, hkv⟩ := putLevel_spec k₀ v₀ hInv hlev
    have hops' : ∀ op ∈ ops, op.2.2 ≤ (s.putLevel k₀ v₀ lvl).1.max_level := by
      intro op hop
      rw [hml]
      exact hops op (List.mem_cons_of_mem _ hop)
    obtain ⟨hInv'', hml', hkv'⟩ := ih _ hInv' hops'
    refine ⟨hInv'',
      by show (applyOps ops (s.putLevel k₀ v₀ lvl).1).max_level = s.max_level
         rw [hml', hml], ?_⟩
    intro k v
    show KeyVal (applyOps ops (s.putLevel k₀ v₀ lvl).1) k v ↔ _
    rw [hkv' k v]
    rw [show ((⟨k₀, v₀, lvl⟩ : Key × Value × Nat) :: ops).map (fun o => (o.1, o.2.1)) =
      (k₀, v₀) :: ops.map (fun o => (o.1, o.2.1)) from rfl]
    rw [specLookup_cons]
    cases hsl : specLookup (ops.map fun o => (o.1, o.2.1)) k with
    | some w =>
      constructor
      · rintro (h | ⟨h, _⟩)
        · exact Or.inl h
        · exact absurd h (by simp)
      · rintro (h | ⟨h, _⟩)
        · exact Or.inl h
        · exact absurd h (by simp)
    | none =>
      rw [hkv k v]
      constructor
      · rintro (h | ⟨_, (⟨rfl, rfl⟩ | ⟨hne, hold⟩)⟩)
        · exact absurd h (by simp)
        · exact Or.inl (by rw [if_pos rfl])
        · refine Or.inr ⟨?_, hold⟩
          exact if_neg (fun h => hne h.symm)
      · rintro (h | ⟨hn, hold⟩)
        · by_cases hk : k₀ = k
          · rw [if_pos hk] at h
            have hv : v₀ = v := (Option.some.injEq ..).mp h
            exact Or.inr ⟨rfl, Or.inl ⟨hk.symm, hv.symm⟩⟩
          · rw [if_neg hk] at h
            exact absurd h (by simp)
        · by_cases hk : k₀ = k
          · rw [if_pos hk] at hn
            exact absurd hn (by simp)
          · exact Or.inr ⟨rfl, Or.inr ⟨fun h => hk h.symm, hold⟩⟩

/-- `get` after any sequence of `put`s returns exactly the most recently put
value, or `KeyNotFound`. -/
theorem applyOps_get (ops : List (Key × Value × Nat)) (ml : Nat)
    (hops : ∀ op ∈ ops, op.2.2 ≤ ml) (k : Key) :
    (applyOps ops (SkipList.new ml)).get k =
      match specLookup (ops.map fun o => (o.1, o.2.1)) k with
      | some v => Except.ok v
      | none => Except.error SkipListError.KeyNotFound := by
  obtain ⟨hInv, _, hkv⟩ := applyOps_spec ops (SkipList.new ml) (inv_new ml) hops
  cases hsl : specLookup (ops.map fun o => (o.1, o.2.1)) k with
  | some v => exact get_found hInv ((hkv k v).mpr (Or.inl hsl))
  | none =>
    refine get_notfound hInv ?_
    rintro ⟨i, hi, hilen, hkey⟩
    obtain ⟨w, hw⟩ := hInv.2.2.value_some i hi hilen
    rcases (hkv k w).mp ⟨i, hi, hilen, hkey, hw⟩ with h | ⟨_, h⟩
    · rw [hsl] at h
      exact absurd h (by simp)
    · exact keyVal_new ml k w h

/-- At most one node ever stores a given key. -/
theorem applyOps_key_unique (ops : List (Key × Value × Nat)) (ml : Nat)
    (hops : ∀ op ∈ ops, op.2.2 ≤ ml) (k : Key) {i j : Nat}
    (hi : 0 < i) (hilen : i < (applyOps ops (SkipList.new ml)).nodes.length)
    (hj : 0 < j) (hjlen : j < (applyOps ops (SkipList.new ml)).nodes.length)
    (hik : ((applyOps ops (SkipList.new ml)).nodes.getD i default).key = some k)
    (hjk : ((applyOps ops (SkipList.new ml)).nodes.getD j default).key = some k) :
    i = j := by
  obtain ⟨hInv, _, _⟩ := applyOps_spec ops (SkipList.new ml) (inv_new ml) hops
  obtain ⟨_, _, hinv⟩ := hInv
  refine keys_unique hinv.ptr hinv.sorted hinv.complete hi hilen hj hjlen ?_
  unfold keyAt
  rw [hik, hjk]

/-! ### WAL framing lemmas -/

theorem u32be_length (n : Nat) : (u32be n).length = 4 := rfl

theorem deU32be_u32be (n : Nat) : deU32be (u32be n) = n % 2 ^ 32 := by
  show n / 2 ^ 24 % 256 * 2 ^ 24 + n / 2 ^ 16 % 256 * 2 ^ 16 +
    n / 2 ^ 8 % 256 * 2 ^ 8 + n % 256 = n % 2 ^ 32
  omega

theorem u64le_length (n : Nat) : (u64le n).length = 8 := rfl

theorem deU64le_u64le (n : Nat) : deU64le (u64le n) = n % 2 ^ 64 := by
  show n % 256 + n / 2 ^ 8 % 256 * 2 ^ 8 + n / 2 ^ 16 % 256 * 2 ^ 16 +
    n / 2 ^ 24 % 256 * 2 ^ 24 + n / 2 ^ 32 % 256 * 2 ^ 32 + n / 2 ^ 40 % 256 * 2 ^ 40 +
    n / 2 ^ 48 % 256 * 2 ^ 48 + n / 2 ^ 56 % 256 * 2 ^ 56 = n % 2 ^ 64
  omega

theorem serKv_length (kv : KvPair) :
    (serKv kv).length = 16 + kv.key.length + kv.value.length := by
  simp [serKv, u64le]
  omega

/-- bincode round-trip for one `KvPair`. -/
theorem take_len_append {α : Type} (a b : List α) {n : Nat} (h : a.length = n) :
    (a ++ b).take n = a := by
  subst h
  exact List.take_left ..

theorem drop_len_append {α : Type} (a b : List α) {n : Nat} (h : a.length = n) :
    (a ++ b).drop n = b := by
  subst h
  exact List.drop_left ..

theorem deKv_serKv (kv : KvPair) (hk : kv.key.length < 2 ^ 64)
    (hv : kv.value.length < 2 ^ 64) : deKv (serKv kv) = some kv := by
  have hser : serKv kv =
      u64le kv.key.length ++ (kv.key ++ (u64le kv.value.length ++ kv.value)) := by
    unfold serKv
    rw [List.append_assoc, List.append_assoc]
  have hlen : (serKv kv).length = 16 + kv.key.length + kv.value.length := serKv_length kv
  simp only [deKv]
  rw [if_neg (by omega), hser]
  rw [take_len_append _ _ (u64le_length _), drop_len_append _ _ (u64le_length _),
    deU64le_u64le, Nat.mod_eq_of_lt hk]
  rw [if_neg (by simp only [List.length_append, u64le_length]; omega)]
  rw [take_len_append _ _ rfl, drop_len_append _ _ rfl]
  rw [if_neg (by simp only [List.length_append, u64le_length]; omega)]
  rw [take_len_append _ _ (u64le_length _), drop_len_append _ _ (u64le_length _),
    deU64le_u64le, Nat.mod_eq_of_lt hv]
  rw [if_neg (lt_irrefl _), List.take_length]

theorem walAppendAll_app : ∀ (rs : List KvPair) (f g : List Nat),
    walAppendAll (f ++ g) rs = f ++ walAppendAll g rs := by
  intro rs
  induction rs with
  | nil => intro f g; rfl
  | cons r rs ih =>
    intro f g
    show walAppendAll (walAppendFile (f ++ g) r) rs = _
    rw [show walAppendFile (f ++ g) r = f ++ walAppendFile g r from by
      unfold walAppendFile
      rw [List.append_assoc, List.append_assoc, List.append_assoc]]
    rw [ih]
    rfl

theorem walReadFile_nil : walReadFile [] = some [] := by
  rw [walReadFile]
  rfl

/-- Reading one well-formed frame followed by anything parses the frame's
record and continues. -/
theorem walReadFile_frame (kv : KvPair) (h : (serKv kv).length < 2 ^ 32)
    (rest : List Nat) :
    walReadFile ((u32be (serKv kv).length ++ serKv kv) ++ rest) =
      (walReadFile rest).map (kv :: ·) := by
  have hlen : (serKv kv).length = 16 + kv.key.length + kv.value.length := serKv_length kv
  rw [walReadFile]
  rw [dif_neg (by simp only [List.length_append, u32be_length]; omega)]
  have htake : ((u32be (serKv kv).length ++ serKv kv) ++ rest).take 4
      = u32be (serKv kv).length := by
    rw [List.append_assoc, show (4 : Nat) = (u32be (serKv kv).length).length from rfl,
      List.take_left]
  have hdrop : ((u32be (serKv kv).length ++ serKv kv) ++ rest).drop 4
      = serKv kv ++ rest := by
    rw [List.append_assoc, show (4 : Nat) = (u32be (serKv kv).length).length from rfl,
      List.drop_left]
  rw [htake, hdrop, deU32be_u32be, Nat.mod_eq_of_lt h]
  rw [if_neg (by simp [List.length_append])]
  rw [show (serKv kv ++ rest).take (serKv kv).length = serKv kv from List.take_left ..]
  rw [show (serKv kv ++ rest).drop (serKv kv).length = rest from List.drop_left ..]
  rw [deKv_serKv kv (by omega) (by omega)]

/-- C3's round-trip core: appending a sequence of records to an empty WAL and
reading it back yields exactly that sequence, provided every serialized
payload fits the 4-byte length prefix. -/
theorem walReadFile_roundtrip : ∀ (records : List KvPair),
    (∀ r ∈ records, (serKv r).length < 2 ^ 32) →
    walReadFile (walAppendAll [] records) = some records := by
  intro records
  induction records with
  | nil => intro _; exact walReadFile_nil
  | cons r rs ih =>
    intro h
    have hr : (serKv r).length < 2 ^ 32 := h r (List.mem_cons_self ..)
    show walReadFile (walAppendAll (walAppendFile [] r) rs) = _
    rw [show walAppendFile [] r = (u32be (serKv r).length ++ serKv r) ++ [] from by
      unfold walAppendFile
      simp]
    rw [show ((u32be (serKv r).length ++ serKv r) ++ [] : List Nat)
      = u32be (serKv r).length ++ serKv r from by simp]
    rw [show (u32be (serKv r).length ++ serKv r : List Nat)
      = (u32be (serKv r).length ++ serKv r) ++ [] from by simp]
    rw [walAppendAll_app rs ((u32be (serKv r).length ++ serKv r)) []]
    rw [walReadFile_frame r hr]
    rw [ih (fun q hq => h q (List.mem_cons_of_mem _ hq))]
    rfl

/-- A 4-byte length prefix followed by fewer payload bytes than it declares
makes `Wal::read` fail (`read_exact` hits `UnexpectedEof` inside the payload
and the error propagates). -/
theorem walReadFile_torn (p torn : List Nat) (hp : p.length = 4)
    (hlt : torn.length < deU32be p) :
    walReadFile (p ++ torn) = none := by
  rw [walReadFile]
  rw [dif_neg (by simp only [List.length_append]; omega)]
  rw [take_len_append _ _ hp, drop_len_append _ _ hp]
  rw [if_pos hlt]

/-- Two complete frames followed by a torn frame: replay errors. -/
theorem walReadFile_two_then_torn (r1 r2 : KvPair)
    (h1 : (serKv r1).length < 2 ^ 32) (h2 : (serKv r2).length < 2 ^ 32)
    (p torn : List Nat) (hp : p.length = 4) (hlt : torn.length < deU32be p) :
    walReadFile (walAppendAll [] [r1, r2] ++ (p ++ torn)) = none := by
  have e : walAppendAll [] [r1, r2] ++ (p ++ torn) =
      (u32be (serKv r1).length ++ serKv r1) ++
        ((u32be (serKv r2).length ++ serKv r2) ++ (p ++ torn)) := by
    show walAppendFile (walAppendFile [] r1) r2 ++ (p ++ torn) = _
    unfold walAppendFile
    simp [List.append_assoc]
  rw [e, walReadFile_frame r1 h1, walReadFile_frame r2 h2,
    walReadFile_torn p torn hp hlt]
  rfl

/-- A record whose serialized payload does not fit in 32 bits: the length
prefix written by `append` (`serialized.len() as u32`) is truncated, and
`read` no longer recovers the record. -/
theorem walReadFile_overflow_gen (N : Nat) (hN : N = 2 ^ 32) :
    walReadFile (walAppendFile [] (KvPair.mk (List.replicate N 0) [])) = none := by
  have hklen : (List.replicate N (0 : Nat)).length = N := List.length_replicate ..
  have hser : serKv (KvPair.mk (List.replicate N 0) []) =
      u64le N ++ (List.replicate N 0 ++ (u64le 0 ++ [])) := by
    show u64le (List.replicate N (0 : Nat)).length ++ List.replicate N (0 : Nat) ++
        u64le (List.length ([] : List Nat)) ++ ([] : List Nat) =
      u64le N ++ (List.replicate N 0 ++ (u64le 0 ++ []))
    rw [hklen, List.append_assoc, List.append_assoc]
    rfl
  have hserlen : (serKv (KvPair.mk (List.replicate N 0) [])).length = 16 + N := by
    rw [serKv_length]
    show 16 + (List.replicate N (0 : Nat)).length + List.length ([] : List Nat) = 16 + N
    rw [hklen]
    rfl
  have hfile : walAppendFile [] (KvPair.mk (List.replicate N 0) []) =
      u32be (16 + N) ++ serKv (KvPair.mk (List.replicate N 0) []) := by
    unfold walAppendFile
    rw [hserlen, List.nil_append]
  rw [hfile, walReadFile]
  rw [dif_neg (by simp only [List.length_append, u32be_length, hserlen]; omega)]
  rw [take_len_append _ _ (u32be_length _), drop_len_append _ _ (u32be_length _),
    deU32be_u32be]
  rw [show (16 + N) % 2 ^ 32 = 16 from by omega]
  rw [if_neg (by rw [hserlen]; omega)]
  have htake16 : (serKv (KvPair.mk (List.replicate N 0) [])).take 16 =
      u64le N ++ List.replicate 8 0 := by
    rw [hser, List.take_append_eq_append_take, u64le_length]
    rw [List.take_of_length_le (by rw [u64le_length]; omega)]
    rw [show (16 - 8 : Nat) = 8 from rfl]
    rw [List.take_append_eq_append_take, List.take_replicate, hklen]
    rw [show (8 : Nat) ⊓ N = 8 from by omega]
    rw [show (8 - N : Nat) = 0 from by omega]
    simp
  rw [htake16]
  have hdeKv : deKv (u64le N ++ List.replicate 8 0) = none := by
    simp only [deKv]
    rw [if_neg (by
      simp only [List.length_append, u64le_length, List.length_replicate]
      omega)]
    rw [take_len_append _ _ (u64le_length _), drop_len_append _ _ (u64le_length _),
      deU64le_u64le]
    rw [show N % 2 ^ 64 = N from by omega]
    rw [if_pos (by rw [List.length_replicate]; omega)]
  rw [hdeKv]

theorem chainFrom_mem {nodes : List Node} {l : Nat} :
    ∀ fuel cur x, x ∈ chainFrom nodes l fuel cur →
      Relation.TransGen (EdgeL nodes l) cur x := by
  intro fuel
  induction fuel with
  | zero => intro cur x h; exact absurd h (by simp [chainFrom])
  | succ fuel ih =>
    intro cur x h
    rw [chainFrom] at h
    cases hf : fwd nodes cur l with
    | none => rw [hf] at h; exact absurd h (by simp)
    | some j =>
      rw [hf] at h
      rcases List.mem_cons.mp h with rfl | h'
      · exact Relation.TransGen.single hf
      · exact Relation.TransGen.head hf (ih j x h')

theorem chainFrom_pairwise {nodes : List Node}
    (hptr : ∀ i l j, fwd nodes i l = some j → 0 < j ∧ j < nodes.length)
    (hsorted : ∀ i l j, fwd nodes i l = some j → 0 < i →
      listLt (keyAt nodes i) (keyAt nodes j)) (l : Nat) :
    ∀ fuel cur, List.Pairwise
      (fun a b => listLt (keyAt nodes a) (keyAt nodes b))
      (chainFrom nodes l fuel cur) := by
  intro fuel
  induction fuel with
  | zero => intro cur; exact List.Pairwise.nil
  | succ fuel ih =>
    intro cur
    rw [chainFrom]
    cases hf : fwd nodes cur l with
    | none => exact List.Pairwise.nil
    | some j =>
      refine List.Pairwise.cons ?_ (ih j)
      intro x hx
      exact reachL_keyLt hptr hsorted (chainFrom_mem fuel j x hx) (hptr _ _ _ hf).1

/-! ### The claims -/

/-- C1: `DB::put` appends the `KvPair { key, value }` to the WAL first, and
applies the pair to the SkipList only if the append succeeds; if the append
fails, `put` returns an error and the SkipList is unchanged, so `put` never
reports success for a mutation that is in memory but not on disk. -/
theorem C1_put_write_ahead (db : DBState) (key value : List Nat) (level : Nat)
    (fault : Option (List Nat)) :
    ((DB.put db key value level fault).2 = Except.ok () →
      fault = none ∧
      (DB.put db key value level fault).1.walFile =
        walAppendFile db.walFile (KvPair.mk key value) ∧
      (DB.put db key value level fault).1.sl = (db.sl.putLevel key value level).1) ∧
    (fault ≠ none →
      (DB.put db key value level fault).2 = Except.error DatabaseError.KeyNotFound ∧
      (DB.put db key value level fault).1.sl = db.sl) := by
  cases fault with
  | none =>
    rcases hres : db.sl.putLevel key value level with ⟨sl', r⟩
    cases r with
    | ok u =>
      cases u
      have hred : DB.put db key value level none =
          ({ walFile := walAppendFile db.walFile (KvPair.mk key value), sl := sl' },
            Except.ok ()) := by
        simp only [DB.put, hres]
      rw [hred]
      refine ⟨fun _ => ⟨rfl, rfl, ?_⟩, fun hne => absurd rfl hne⟩
      rfl
    | error e =>
      have hred : DB.put db key value level none =
          ({ walFile := walAppendFile db.walFile (KvPair.mk key value), sl := sl' },
            Except.error DatabaseError.KeyNotFound) := by
        simp only [DB.put, hres]
      rw [hred]
      exact ⟨fun h => absurd h (by simp), fun hne => absurd rfl hne⟩
  | some torn =>
    refine ⟨fun h => absurd h (by simp [DB.put]), fun _ => ⟨rfl, rfl⟩⟩

theorem C1_witness :
    (DB.put { walFile := [], sl := SkipList.new 2 } [1] [2] 0 (some [9])).2 =
      Except.error DatabaseError.KeyNotFound ∧
    (DB.put { walFile := [], sl := SkipList.new 2 } [1] [2] 0 (some [9])).1.sl =
      { walFile := [], sl := SkipList.new 2 : DBState }.sl :=
  (C1_put_write_ahead { walFile := [], sl := SkipList.new 2 } [1] [2] 0 (some [9])).2
    (by simp)

/-- C2: after any sequence of `put`s, `get k` returns the most recently put
value for `k` (or `KeyNotFound` if none), and at most one node ever carries
the key `k` — repeated puts of the same key leave a single entry. -/
theorem C2_roundtrip_overwrite (ops : List (Key × Value × Nat)) (ml : Nat)
    (hops : ∀ op ∈ ops, op.2.2 ≤ ml) (k : Key) :
    ((applyOps ops (SkipList.new ml)).get k =
      match specLookup (ops.map fun o => (o.1, o.2.1)) k with
      | some v => Except.ok v
      | none => Except.error SkipListError.KeyNotFound) ∧
    (∀ i j, 0 < i → i < (applyOps ops (SkipList.new ml)).nodes.length →
      0 < j → j < (applyOps ops (SkipList.new ml)).nodes.length →
      ((applyOps ops (SkipList.new ml)).nodes.getD i default).key = some k →
      ((applyOps ops (SkipList.new ml)).nodes.getD j default).key = some k →
      i = j) :=
  ⟨applyOps_get ops ml hops k,
    fun _ _ hi hil hj hjl hik hjk => applyOps_key_unique ops ml hops k hi hil hj hjl hik hjk⟩

theorem C2_witness :
    (∀ op ∈ ([([1], [10], 0), ([2], [20], 1), ([1], [11], 0)] :
      List (Key × Value × Nat)), op.2.2 ≤ 3) ∧
    (applyOps [([1], [10], 0), ([2], [20], 1), ([1], [11], 0)] (SkipList.new 3)).get [1] =
      match specLookup ([([1], [10], 0), ([2], [20], 1), ([1], [11], 0)].map
        fun o => (o.1, o.2.1)) [1] with
      | some v => Except.ok v
      | none => Except.error SkipListError.KeyNotFound :=
  ⟨by decide,
    (C2_roundtrip_overwrite [([1], [10], 0), ([2], [20], 1), ([1], [11], 0)] 3
      (by decide) [1]).1⟩

/-- C3 (counterexample): the claim fails for a record whose serialized payload
is at least `2^32` bytes: `append` writes `serialized.len() as u32`, truncating
the length prefix, after which `read` cannot recover the record — it returns
an error instead of the one-record sequence. -/
theorem C3_counterexample :
    walReadFile (walAppendAll [] [KvPair.mk (List.replicate (2 ^ 32) 0) []]) ≠
      some [KvPair.mk (List.replicate (2 ^ 32) 0) []] := by
  have h1 : walReadFile (walAppendAll [] [KvPair.mk (List.replicate (2 ^ 32) 0) []])
      = none := walReadFile_overflow_gen (2 ^ 32) rfl
  rw [h1]
  intro h
  exact Option.noConfusion h

/-- C3 (amended): for every finite sequence of records each of whose
serialized payloads is shorter than `2^32` bytes (so the 4-byte big-endian
length prefix is exact), appending them to an empty WAL and reading it back
returns exactly that sequence in order. -/
theorem C3_wal_roundtrip (records : List KvPair)
    (h : ∀ r ∈ records, (serKv r).length < 2 ^ 32) :
    walReadFile (walAppendAll [] records) = some records :=
  walReadFile_roundtrip records h

theorem C3_witness :
    (∀ r ∈ [KvPair.mk [1] [10], KvPair.mk [2] [20, 21]], (serKv r).length < 2 ^ 32) ∧
    walReadFile (walAppendAll [] [KvPair.mk [1] [10], KvPair.mk [2] [20, 21]]) =
      some [KvPair.mk [1] [10], KvPair.mk [2] [20, 21]] :=
  ⟨by decide, C3_wal_roundtrip [KvPair.mk [1] [10], KvPair.mk [2] [20, 21]] (by decide)⟩

/-- C4: after any sequence of puts on a skip list created by `new(max_level)`,
for every level `l ≤ current_level`, the chain reachable from the head via
`forward[l]` is strictly increasing in key. -/
theorem C4_sorted_chains (ops : List (Key × Value × Nat)) (ml : Nat)
    (hops : ∀ op ∈ ops, op.2.2 ≤ ml) (l : Nat)
    (hl : l ≤ (applyOps ops (SkipList.new ml)).current_level) :
    List.Pairwise
      (fun a b => listLt (keyAt (applyOps ops (SkipList.new ml)).nodes a)
        (keyAt (applyOps ops (SkipList.new ml)).nodes b))
      (chainAt (applyOps ops (SkipList.new ml)) l) := by
  obtain ⟨hInv, _, _⟩ := applyOps_spec ops (SkipList.new ml) (inv_new ml) hops
  obtain ⟨_, _, hinv⟩ := hInv
  exact chainFrom_pairwise hinv.ptr hinv.sorted l _ _

theorem C4_witness :
    ((∀ op ∈ ([([2], [20], 1), ([1], [10], 0), ([3], [30], 1)] :
      List (Key × Value × Nat)), op.2.2 ≤ 3) ∧
      1 ≤ (applyOps [([2], [20], 1), ([1], [10], 0), ([3], [30], 1)]
        (SkipList.new 3)).current_level) ∧
    List.Pairwise
      (fun a b => listLt
        (keyAt (applyOps [([2], [20], 1), ([1], [10], 0), ([3], [30], 1)]
          (SkipList.new 3)).nodes a)
        (keyAt (applyOps [([2], [20], 1), ([1], [10], 0), ([3], [30], 1)]
          (SkipList.new 3)).nodes b))
      (chainAt (applyOps [([2], [20], 1), ([1], [10], 0), ([3], [30], 1)]
        (SkipList.new 3)) 1) :=
  ⟨⟨by decide, by decide⟩,
    C4_sorted_chains [([2], [20], 1), ([1], [10], 0), ([3], [30], 1)] 3 (by decide) 1
      (by decide)⟩

/-- C5: calling `put(k, v)` on a reachable state that already contains `k`
replaces the stored value in place and returns `Ok`: the arena, every node's
key and forward pointers, and `current_level` are otherwise unchanged. -/
theorem C5_update_in_place (ops : List (Key × Value × Nat)) (ml : Nat)
    (hops : ∀ op ∈ ops, op.2.2 ≤ ml) (k : Key) (v : Value) (level : Nat)
    (hk : HasKey (applyOps ops (SkipList.new ml)) k) :
    ∃ i, 0 < i ∧ i < (applyOps ops (SkipList.new ml)).nodes.length ∧
      ((applyOps ops (SkipList.new ml)).nodes.getD i default).key = some k ∧
      (applyOps ops (SkipList.new ml)).putLevel k v level =
        ({ applyOps ops (SkipList.new ml) with
            nodes := (applyOps ops (SkipList.new ml)).nodes.set i
              { (applyOps ops (SkipList.new ml)).nodes.getD i default with
                  value := some v } },
          Except.ok ()) ∧
      ((applyOps ops (SkipList.new ml)).putLevel k v level).1.nodes.length =
        (applyOps ops (SkipList.new ml)).nodes.length ∧
      ((applyOps ops (SkipList.new ml)).putLevel k v level).1.current_level =
        (applyOps ops (SkipList.new ml)).current_level ∧
      (∀ x, (((applyOps ops (SkipList.new ml)).putLevel k v level).1.nodes.getD x
          default).forward =
        (((applyOps ops (SkipList.new ml)).nodes.getD x default)).forward) ∧
      (∀ x, (((applyOps ops (SkipList.new ml)).putLevel k v level).1.nodes.getD x
          default).key =
        ((applyOps ops (SkipList.new ml)).nodes.getD x default).key) := by
  obtain ⟨hInv, _, _⟩ := applyOps_spec ops (SkipList.new ml) (inv_new ml) hops
  obtain ⟨hhead, hcl, hinv⟩ := hInv
  set s := applyOps ops (SkipList.new ml) with hs
  obtain ⟨m, hm, hmlen, hmkey⟩ := hk
  cases hps : putSearch s.nodes k s.current_level s.head
      (List.replicate (s.max_level + 1) none) with
  | inl buf =>
    exfalso
    obtain ⟨j, hj⟩ := putSearch_finds hinv hmkey s.current_level s.head
      (List.replicate (s.max_level + 1) none) (Or.inl hhead)
      (by rw [hhead]; exact hinv.complete m hm hmlen)
    rw [hps] at hj
    exact absurd hj (by simp)
  | inr j =>
    obtain ⟨hjpos, hjlen, hjkey⟩ := putSearch_inr_key hinv _ _ _ j hps
    have hred : s.putLevel k v level =
        ({ s with nodes := s.nodes.set j { s.nodes.getD j default with value := some v } },
          Except.ok ()) := by
      rw [SkipList.putLevel, hps]
    refine ⟨j, hjpos, hjlen, hjkey, hred, ?_, ?_, ?_, ?_⟩
    · rw [hred]
      exact List.length_set ..
    · rw [hred]
    · intro x
      rw [hred]
      show ((s.nodes.set j _).getD x default).forward = _
      by_cases hx : x = j
      · subst hx
        rw [getD_set_self _ _ _ _ hjlen]
      · rw [getD_set_other _ _ _ (fun h => hx h.symm)]
    · intro x
      rw [hred]
      show ((s.nodes.set j _).getD x default).key = _
      by_cases hx : x = j
      · subst hx
        rw [getD_set_self _ _ _ _ hjlen]
      · rw [getD_set_other _ _ _ (fun h => hx h.symm)]

theorem C5_witness :
    ((∀ op ∈ ([([1], [10], 1)] : List (Key × Value × Nat)), op.2.2 ≤ 2) ∧
      HasKey (applyOps [([1], [10], 1)] (SkipList.new 2)) [1]) ∧
    (∃ i, 0 < i ∧ i < (applyOps [([1], [10], 1)] (SkipList.new 2)).nodes.length ∧
      ((applyOps [([1], [10], 1)] (SkipList.new 2)).nodes.getD i default).key = some [1] ∧
      (applyOps [([1], [10], 1)] (SkipList.new 2)).putLevel [1] [11] 2 =
        ({ applyOps [([1], [10], 1)] (SkipList.new 2) with
            nodes := (applyOps [([1], [10], 1)] (SkipList.new 2)).nodes.set i
              { (applyOps [([1], [10], 1)] (SkipList.new 2)).nodes.getD i default with
                  value := some [11] } },
          Except.ok ()) ∧
      ((applyOps [([1], [10], 1)] (SkipList.new 2)).putLevel [1] [11] 2).1.nodes.length =
        (applyOps [([1], [10], 1)] (SkipList.new 2)).nodes.length ∧
      ((applyOps [([1], [10], 1)] (SkipList.new 2)).putLevel [1] [11] 2).1.current_level =
        (applyOps [([1], [10], 1)] (SkipList.new 2)).current_level ∧
      (∀ x, (((applyOps [([1], [10], 1)] (SkipList.new 2)).putLevel [1] [11] 2).1.nodes.getD
          x default).forward =
        (((applyOps [([1], [10], 1)] (SkipList.new 2)).nodes.getD x default)).forward) ∧
      (∀ x, (((applyOps [([1], [10], 1)] (SkipList.new 2)).putLevel [1] [11] 2).1.nodes.getD
          x default).key =
        ((applyOps [([1], [10], 1)] (SkipList.new 2)).nodes.getD x default).key)) :=
  ⟨⟨by decide, ⟨1, by decide⟩⟩,
    C5_update_in_place [([1], [10], 1)] 2 (by decide) [1] [11] 2 ⟨1, by decide⟩⟩

/-- C6 (counterexample): a WAL whose read fails (a 4-byte length prefix
declaring 5 payload bytes followed by only 2) does not make `DB::new` fail:
`wal.read().unwrap_or_default()` replaces the error with the empty record
list and construction succeeds with an empty index — the read failure is
swallowed, not propagated. -/
theorem C6_counterexample :
    walReadFile [0, 0, 0, 5, 1, 2] = none ∧
    DB.new [0, 0, 0, 5, 1, 2] 4 [] =
      { walFile := [0, 0, 0, 5, 1, 2], sl := SkipList.new 4 } := by
  have h : walReadFile [0, 0, 0, 5, 1, 2] = none := by
    simp [walReadFile, deU32be]
  refine ⟨h, ?_⟩
  rw [DB.new, h]
  rfl

/-- C6 (amended): a failure of the underlying WAL read during startup replay
is NOT propagated: `DB::new` swallows it (`unwrap_or_default`) and returns a
database whose in-memory index is empty, exactly as for an empty/absent
WAL. -/
theorem C6_new_swallows_read_failure (file : List Nat) (ml : Nat)
    (levels : List Nat) (h : walReadFile file = none) :
    DB.new file ml levels = { walFile := file, sl := SkipList.new ml } := by
  rw [DB.new, h]
  rfl

theorem C6_witness :
    walReadFile [0, 0, 0, 7, 9] = none ∧
    DB.new [0, 0, 0, 7, 9] 3 [0, 1] =
      { walFile := [0, 0, 0, 7, 9], sl := SkipList.new 3 } := by
  have h : walReadFile [0, 0, 0, 7, 9] = none := by
    simp [walReadFile, deU32be]
  exact ⟨h, C6_new_swallows_read_failure [0, 0, 0, 7, 9] 3 [0, 1] h⟩

/-- C7: the torn-tail policy of `Wal::read` is policy (ii) — error.  For a
WAL holding two complete records followed by a 4-byte length prefix and
strictly fewer payload bytes than it declares, `read` returns an error
(`read_exact` on the payload hits `UnexpectedEof`, which is not treated as a
clean end of log), for every such input. -/
theorem C7_torn_tail_errors (r1 r2 : KvPair)
    (h1 : (serKv r1).length < 2 ^ 32) (h2 : (serKv r2).length < 2 ^ 32)
    (p torn : List Nat) (hp : p.length = 4) (hlt : torn.length < deU32be p) :
    walReadFile (walAppendAll [] [r1, r2] ++ (p ++ torn)) = none :=
  walReadFile_two_then_torn r1 r2 h1 h2 p torn hp hlt

theorem C7_witness :
    ((serKv (KvPair.mk [1] [2])).length < 2 ^ 32 ∧
      (serKv (KvPair.mk [3] [4])).length < 2 ^ 32 ∧
      ([0, 0, 0, 9] : List Nat).length = 4 ∧
      ([1, 2, 3] : List Nat).length < deU32be [0, 0, 0, 9]) ∧
    walReadFile (walAppendAll [] [KvPair.mk [1] [2], KvPair.mk [3] [4]] ++
      ([0, 0, 0, 9] ++ [1, 2, 3])) = none :=
  ⟨⟨by decide, by decide, by decide, by decide⟩,
    C7_torn_tail_errors (KvPair.mk [1] [2]) (KvPair.mk [3] [4]) (by decide)
      (by decide) [0, 0, 0, 9] [1, 2, 3] (by decide) (by decide)⟩

/-- C8: `get` on a key never inserted returns `KeyNotFound` rather than
crashing, in both layers — on the SkipList after any sequence of puts of
other keys (a fresh instance is the empty sequence), and on the DB whose
index is that SkipList. -/
theorem C8_absent_key_not_found (ops : List (Key × Value × Nat)) (ml : Nat)
    (hops : ∀ op ∈ ops, op.2.2 ≤ ml) (k : Key)
    (habsent : ∀ op ∈ ops, op.1 ≠ k) (f : List Nat) :
    (applyOps ops (SkipList.new ml)).get k =
      Except.error SkipListError.KeyNotFound ∧
    DB.get { walFile := f, sl := applyOps ops (SkipList.new ml) } k =
      Except.error DatabaseError.KeyNotFound := by
  have hnone : specLookup (ops.map fun o => (o.1, o.2.1)) k = none := by
    refine specLookup_absent _ _ ?_
    intro q hq
    obtain ⟨op, hop, rfl⟩ := List.mem_map.mp hq
    exact habsent op hop
  have hget := applyOps_get ops ml hops k
  rw [hnone] at hget
  refine ⟨hget, ?_⟩
  simp only [DB.get, hget]

theorem C8_witness :
    ((∀ op ∈ ([([2], [20], 0)] : List (Key × Value × Nat)), op.2.2 ≤ 1) ∧
      (∀ op ∈ ([([2], [20], 0)] : List (Key × Value × Nat)), op.1 ≠ [1])) ∧
    ((applyOps [([2], [20], 0)] (SkipList.new 1)).get [1] =
        Except.error SkipListError.KeyNotFound ∧
      DB.get { walFile := [], sl := applyOps [([2], [20], 0)] (SkipList.new 1) }
          [1] =
        Except.error DatabaseError.KeyNotFound) :=
  ⟨⟨by decide, by decide⟩,
    C8_absent_key_not_found [([2], [20], 0)] 1 (by decide) [1] (by decide) []⟩

/-- C9: `DatabaseError` has exactly one variant, `KeyNotFound`; every error
`DB::put` or `DB::get` returns to the caller — including a WAL append I/O
failure inside `put` — is reported as `KeyNotFound`, indistinguishable from
looking up an absent key. -/
theorem C9_single_error_variant :
    (∀ e : DatabaseError, e = DatabaseError.KeyNotFound) ∧
    (∀ (db : DBState) (key value : List Nat) (level : Nat)
        (fault : Option (List Nat)),
      (DB.put db key value level fault).2 = Except.ok () ∨
      (DB.put db key value level fault).2 =
        Except.error DatabaseError.KeyNotFound) ∧
    (∀ (db : DBState) (key : List Nat),
      (∃ v, DB.get db key = Except.ok v) ∨
      DB.get db key = Except.error DatabaseError.KeyNotFound) := by
  refine ⟨fun e => by cases e; rfl, ?_, ?_⟩
  · intro db key value level fault
    cases fault with
    | some torn => exact Or.inr rfl
    | none =>
      rcases hres : db.sl.putLevel key value level with ⟨sl', r⟩
      cases r with
      | ok u =>
        cases u
        exact Or.inl (by simp only [DB.put, hres])
      | error e => exact Or.inr (by simp only [DB.put, hres])
  · intro db key
    cases hres : db.sl.get key with
    | ok v => exact Or.inl ⟨v, by simp only [DB.get, hres]⟩
    | error e => exact Or.inr (by simp only [DB.get, hres])

/-- C10: in every SkipList state reachable from `new(max_level)` by any
sequence of puts (`get` is pure and does not change the state), every
`Some(i)` forward pointer holds an index that is in bounds of the arena and
never 0 (the head), and every non-head node has `key = Some` and
`value = Some` — so the arena indexing and the key `unwrap`s of the descent
loops never panic. -/
theorem C10_pointer_safety (ops : List (Key × Value × Nat)) (ml : Nat)
    (hops : ∀ op ∈ ops, op.2.2 ≤ ml) :
    (∀ i l j, fwd (applyOps ops (SkipList.new ml)).nodes i l = some j →
      0 < j ∧ j < (applyOps ops (SkipList.new ml)).nodes.length) ∧
    (∀ i, 0 < i → i < (applyOps ops (SkipList.new ml)).nodes.length →
      ((applyOps ops (SkipList.new ml)).nodes.getD i default).key.isSome ∧
      ((applyOps ops (SkipList.new ml)).nodes.getD i default).value.isSome) := by
  obtain ⟨⟨_, _, hinv⟩, _, _⟩ :=
    applyOps_spec ops (SkipList.new ml) (inv_new ml) hops
  refine ⟨hinv.ptr, fun i hi hl => ⟨?_, ?_⟩⟩
  · rw [hinv.key_some i hi hl]
    rfl
  · obtain ⟨v, hv⟩ := hinv.value_some i hi hl
    rw [hv]
    rfl

theorem C10_witness :
    (∀ op ∈ ([([1], [10], 1)] : List (Key × Value × Nat)), op.2.2 ≤ 2) ∧
    ((∀ i l j, fwd (applyOps [([1], [10], 1)] (SkipList.new 2)).nodes i l =
        some j →
      0 < j ∧ j < (applyOps [([1], [10], 1)] (SkipList.new 2)).nodes.length) ∧
    (∀ i, 0 < i → i < (applyOps [([1], [10], 1)] (SkipList.new 2)).nodes.length →
      ((applyOps [([1], [10], 1)] (SkipList.new 2)).nodes.getD i
          default).key.isSome ∧
      ((applyOps [([1], [10], 1)] (SkipList.new 2)).nodes.getD i
          default).value.isSome)) :=
  ⟨by decide, C10_pointer_safety [([1], [10], 1)] 2 (by decide)⟩

end KvDb
